import Mathlib

/-!
Verification development for the RepoSage file-tree construction core
(src/file_utils.py and the fallback fetcher in src/github_api.py).

The Python functions are shallowly embedded as executable Lean functions:

* `shouldIgnore` embeds `file_utils.shouldIgnore`.  The Python code turns each
  ignore pattern into a regular expression by the textual replacements
  `.` to `\.`, `*` to `.*`, `?` to `.`, anchors it with a leading `^` (pattern
  starting with `/`) or a leading `.*` (otherwise), appends `.*` when the
  pattern ends with `/`, and then calls `re.match`, falling back to a plain
  substring test when the regex engine raises `re.error`.  The generated
  regexes over well-behaved patterns use only literal characters, the escaped
  dot `\.`, the any-character dot `.` and the starred forms of those atoms;
  `parseAtoms` parses exactly that fragment and conservatively reports any
  other metacharacter as a compile failure (mirroring the `re.error` branch).
  `re.match` semantics: the regex needs to match only a prefix of the path,
  and `.` matches every character except the newline.

* `buildFileTree` embeds `file_utils.buildFileTree`.  The Python code mutates
  shared node dictionaries through a path-to-node lookup table; the embedding
  gives every created node an integer id (its creation index), keeps the
  lookup table as an association list from path to id, records every
  `children.append` as an edge (parent id, child id), and finally materializes
  the tree rooted at id 0.  Field `"type"` of an input entry is kept as a
  string and classified exactly as the source does; entries are records with
  optional fields so that the missing-field skip of the source is preserved.

* `countFiles` embeds `file_utils.countFiles`.

* `buildManualTree` / `processDirectory` embed the fallback fetcher of
  src/github_api.py, with the remote directory structure abstracted as an
  inductive tree whose listings return the items of one directory (sha and
  size metadata and the network failure branches are not modelled; the claim
  under study concerns only the recursion bound).
-/

namespace RepoSage

/-! ## Regex fragment generated by shouldIgnore -/

/-- An atom of the regex fragment: a literal character or the dot. -/
inductive RTok where
  | lit (c : Char)
  | any
deriving DecidableEq

/-- A regex element: a single atom or a starred atom. -/
inductive RItem where
  | once (t : RTok)
  | star (t : RTok)
deriving DecidableEq

/-- Atom matching; the Python dot matches every character except newline. -/
def matchTok : RTok → Char → Bool
  | .lit c, x => x == c
  | .any, x => x != '\n'

/-- Does a regex match the empty string? -/
def matchNil : List RItem → Bool
  | [] => true
  |  .once _ :: _ => false
  | .star _ :: ts => matchNil ts

/-- One character worth of regex matching, parameterized by the continuation
for the rest of the input. -/
def matchCons (x : Char) (next : List RItem → Bool) : List RItem → Bool
  | [] => true
  | .once t :: ts => matchTok t x && next ts
  | .star t :: ts => matchCons x next ts || (matchTok t x && next (.star t :: ts))

/-- Regex matching against an explicit character list, by structural recursion
on the input string. -/
def matchChars : List Char → List RItem → Bool
  | [], ts => matchNil ts
  | x :: xs, ts => matchCons x (matchChars xs) ts

/-- `matchItems ts s` is true when the regex `ts` matches some prefix of `s`,
which is exactly the truthiness of the Python `re.match(ts, s)`.  The final
`matchItems [] s = true` clause realizes the missing end anchor. -/
def matchItems (ts : List RItem) (s : List Char) : Bool := matchChars s ts

/-! ## Pattern translation (the three replaces and the anchoring) -/

/-- Replace every occurrence of the character `c` by the string `rep`;
this is Python `str.replace` restricted to a one-character needle, which is
all `shouldIgnore` uses. -/
def replaceChar (c : Char) (rep : List Char) : List Char → List Char
  | [] => []
  | x :: xs => (if x = c then rep else [x]) ++ replaceChar c rep xs

/-- The three textual replacements of the source, in source order:
dot escaping, then star expansion, then question-mark expansion. -/
def translateChars (p : List Char) : List Char :=
  replaceChar '?' ['.'] (replaceChar '*' ['.', '*'] (replaceChar '.' ['\\', '.'] p))

/-- The full regex text the source builds for one pattern: translation,
then the anchoring prefix, then the directory suffix. -/
def regexOf (pattern : String) : List Char :=
  let base := translateChars pattern.toList
  let base :=
    if pattern.toList.head? = some '/' then '^' :: base.drop 1
    else '.' :: '*' :: base
  if pattern.toList.getLast? = some '/' then base ++ ['.', '*'] else base

/-- Is this character a regex metacharacter outside the parsed fragment?
Such a character makes `parseAtoms` fail, which models the `re.error`
fallback branch of the source. -/
def isMeta (c : Char) : Bool :=
  c == '*' || c == '?' || c == '+' || c == '(' || c == ')' || c == '[' ||
  c == ']' || c == '{' || c == '}' || c == '|' || c == '^' || c == '$' || c == '\\'

/-- Parse the regex fragment generated by `regexOf` from well-behaved
patterns: sequences of (possibly starred) literal atoms, escaped dots and
dots.  Outside that fragment the parser reports failure, standing for the
`re.error` branch of the source. -/
def parseAtoms : List Char → Option (List RItem)
  | [] => some []
  | '\\' :: '.' :: '*' :: rest => (parseAtoms rest).map (.star (.lit '.') :: ·)
  | '\\' :: '.' :: rest => (parseAtoms rest).map (.once (.lit '.') :: ·)
  | '\\' :: _ => none
  | '.' :: '*' :: rest => (parseAtoms rest).map (.star .any :: ·)
  | '.' :: rest => (parseAtoms rest).map (.once .any :: ·)
  | c :: '*' :: rest =>
      if isMeta c then none else (parseAtoms rest).map (.star (.lit c) :: ·)
  | c :: rest =>
      if isMeta c then none else (parseAtoms rest).map (.once (.lit c) :: ·)

/-- Compile one ignore pattern to the regex fragment.  A leading `^` produced
by the anchored branch is skipped: `re.match` is anchored at the start of the
string in any case.  `none` models a pattern whose generated regex the engine
rejects. -/
def compileRegex (p : String) : Option (List RItem) :=
  match regexOf p with
  | '^' :: rest => parseAtoms rest
  | l => parseAtoms l

/-- Is `n` a prefix of `h`? -/
def isPrefixB : List Char → List Char → Bool
  | [], _ => true
  | _ :: _, [] => false
  | a :: as, b :: bs => a == b && isPrefixB as bs

/-- Substring containment, Python `pattern in path`. -/
def containsSub (n : List Char) : List Char → Bool
  | [] => isPrefixB n []
  | x :: xs => isPrefixB n (x :: xs) || containsSub n xs

/-- The body of the per-pattern loop of `shouldIgnore`: regex match when the
pattern compiles, otherwise the substring fallback of the `except re.error`
branch. -/
def matchesPattern (pattern path : String) : Bool :=
  match compileRegex pattern with
  | some items => matchItems items path.toList
  | none => containsSub pattern.toList path.toList

/-- Embedding of `file_utils.shouldIgnore`: empty path or empty pattern list
give `False`; empty patterns are skipped; the first matching pattern wins. -/
def shouldIgnore (path : String) (ignorePatterns : List String) : Bool :=
  if path = "" || ignorePatterns.isEmpty then false
  else ignorePatterns.any fun pattern =>
    if pattern = "" then false else matchesPattern pattern path

/-! ## TreeBuilder: data model -/

/-- An input entry of `buildFileTree`: a Python dict with the two fields the
builder reads, kept optional because the source skips entries in which either
key is absent. -/
structure Item where
  path : Option String
  type : Option String
deriving DecidableEq

/-- A node of the resulting tree.  File nodes carry `name` and `path`;
directory nodes carry `name`, an optional `path` (the root has none) and an
ordered children list, exactly the dict shapes the source builds. -/
inductive FNode where
  | file (name : String) (path : String)
  | dir (name : String) (path? : Option String) (children : List FNode)

/-- The data of one created node dict, without its children: the children
relation is kept separately as edges, since the source mutates shared node
dicts through the lookup table. -/
structure NodeData where
  name : String
  ntype : String
  path? : Option String
deriving DecidableEq

/-- The construction state: `nodes` is the creation log (index = node id,
id 0 = root), `edges` records every `children.append` call in order as
(parent id, child id), and `dirIdx` is the `dir_nodes` lookup table as an
association list with the newest binding first (a rebinding of the same key
shadows the older one, like a Python dict overwrite). -/
structure BuildState where
  nodes : List NodeData
  edges : List (Nat × Nat)
  dirIdx : List (String × Nat)
deriving DecidableEq

/-- The root node dict created at the top of `buildFileTree`. -/
def rootData : NodeData := ⟨"/", "directory", none⟩

/-- Lookup in the `dir_nodes` table (newest binding wins). -/
def lookupDir (st : BuildState) (p : String) : Option Nat :=
  (st.dirIdx.find? (fun b => b.1 == p)).map (·.2)

/-! ## Path splitting and joining (Python str.split and str.join) -/

/-- Python `s.split("/")` on character lists; note `"".split("/") = [""]`. -/
def splitSlashC : List Char → List (List Char)
  | [] => [[]]
  | c :: cs =>
    match splitSlashC cs with
    | [] => [[]]
    | r :: rs => if c = '/' then [] :: r :: rs else (c :: r) :: rs

/-- Python `path.split("/")`. -/
def splitSlash (s : String) : List String := (splitSlashC s.toList).map (fun l => ⟨l⟩)

/-- Python `"/".join(l)`. -/
def joinSlash : List String → String
  | [] => ""
  | [x] => x
  | x :: xs => x ++ "/" ++ joinSlash xs

/-- `joinSlash` on character lists, for the round-trip lemmas. -/
def joinSlashC : List (List Char) → List Char
  | [] => []
  | [x] => x
  | x :: xs => x ++ '/' :: joinSlashC xs

/-- The kind normalization of the source:
`"directory" if item["type"] == "tree" else "file"`. -/
def classifyType (t : String) : String := if t = "tree" then "directory" else "file"

/-! ## Sorting (Python sorted with key x.get("path", "")) -/

/-- The sort key of the source: `x.get("path", "")`. -/
def pathKey (i : Item) : String := i.path.getD ""

/-- Lexicographic strict order on character lists by code point: this is how
Python compares the string keys (and it agrees with the Lean order on
strings). -/
def keyLt : List Char → List Char → Bool
  | [], [] => false
  | [], _ :: _ => true
  | _ :: _, [] => false
  | a :: as, b :: bs =>
    if a.toNat < b.toNat then true
    else if b.toNat < a.toNat then false
    else keyLt as bs

/-- Strict key comparison of two items. -/
def itemLt (x y : Item) : Bool := keyLt (pathKey x).toList (pathKey y).toList

/-- Insert an item after every already-placed item of smaller-or-equal key;
folding this over the input list is a stable sort by `pathKey`, which agrees
with Python `sorted(tree, key=lambda x: x.get("path", ""))` (Python sort is
stable, and a stable sort by a total key order is unique). -/
def insertItem (x : Item) : List Item → List Item
  | [] => [x]
  | y :: ys => if itemLt x y then x :: y :: ys else y :: insertItem x ys

/-- The sorted-entries pass. -/
def sortItems (l : List Item) : List Item := l.foldl (fun acc x => insertItem x acc) []

/-! ## The builder -/

/-- The parent used while synthesizing the ancestor at index `i`:
`"/"` at the first index, the joined prefix `parts[:i]` otherwise, rescued to
`"/"` when that join is empty (lines 136-138 of the source). -/
def popOf (parts : List String) (i : Nat) : String :=
  let pop0 := if i = 0 then "/" else joinSlash (parts.take i)
  if pop0 = "" then "/" else pop0

/-- One iteration body of the parent-chain synthesis loop of the source:
when `current_path` is nonempty and missing from the lookup table, resolve
its own parent, silently give up when that parent is itself missing (the
`continue`), and otherwise create the directory node, append it to the
children of the resolved parent, and register it. -/
def synthStep (parts : List String) (st : BuildState) (i : Nat)
    (part current_path : String) : BuildState :=
  if current_path ≠ "" ∧ lookupDir st current_path = none then
    match lookupDir st (popOf parts i) with
    | none => st
    | some pid =>
      let nid := st.nodes.length
      { nodes := st.nodes ++ [⟨part, "directory", some current_path⟩],
        edges := st.edges ++ [(pid, nid)],
        dirIdx := (current_path, nid) :: st.dirIdx }
  else st

/-- The parent-chain synthesis loop of the source (`for i, part in
enumerate(parts[:-1])`); `cur` carries the accumulated `current_path` of the
previous iteration. -/
def synthLoop (parts : List String) : BuildState → Nat → String → List String → BuildState
  | st, _, _, [] => st
  | st, i, cur, part :: rest =>
    let current_path := if i = 0 then part else cur ++ "/" ++ part
    synthLoop parts (synthStep parts st i part current_path) (i + 1) current_path rest

/-- Node creation for one entry: create the node dict, register directory
nodes in the lookup table under their path (possibly shadowing an older
binding, as a dict overwrite does), then append the node to the children of
the node the lookup table currently holds for `parent_path`. -/
def entryStep (st1 : BuildState) (parent_path name item_type path : String) : BuildState :=
  let nid := st1.nodes.length
  let st2 : BuildState :=
    { nodes := st1.nodes ++ [⟨name, item_type, some path⟩],
      edges := st1.edges,
      dirIdx :=
        if item_type = "directory" then (path, nid) :: st1.dirIdx else st1.dirIdx }
  match lookupDir st2 parent_path with
  | some pid => { st2 with edges := st2.edges ++ [(pid, nid)] }
  | none => st2

/-- Processing of one entry of the sorted pass, following the source line by
line: skip on a missing field, classify the kind, skip on an ignore match,
skip on exceeded depth, resolve or synthesize the parent chain, fall back to
the root when the parent is still unresolved, and create and attach the
node. -/
def processItem (ignorePatterns : List String) (maxDepth : Int) (st : BuildState)
    (item : Item) : BuildState :=
  match item.path, item.type with
  | some path, some ty =>
    let item_type := classifyType ty
    if shouldIgnore path ignorePatterns then st
    else
      let parts := splitSlash path
      let depth : Int := (parts.length : Int) - 1
      if maxDepth ≥ 0 ∧ depth > maxDepth then st
      else
        let pp0 := joinSlash parts.dropLast
        let parent_path0 := if pp0 = "" then "/" else pp0
        let st1 :=
          if lookupDir st parent_path0 = none then synthLoop parts st 0 "" parts.dropLast
          else st
        let parent_path := if lookupDir st1 parent_path0 = none then "/" else parent_path0
        entryStep st1 parent_path (parts.getLastD "") item_type path
  | _, _ => st

/-- The state seeded with the root: `dir_nodes = {"/": root}`. -/
def initState : BuildState := ⟨[rootData], [], [("/", 0)]⟩

/-- The full construction pass over the sorted entries. -/
def buildState (tree : List Item) (ignorePatterns : List String) (maxDepth : Int) :
    BuildState :=
  (sortItems tree).foldl (processItem ignorePatterns maxDepth) initState

/-- The ordered child ids of node `i`: the recorded append calls targeting
the node dict with id `i`, in append order. -/
def childIds (edges : List (Nat × Nat)) (i : Nat) : List Nat :=
  (edges.filter (fun e => e.1 == i)).map (·.2)

/-- Materialize the node with id `i` from the creation log.  The fuel only
serves Lean totality: `st.nodes.length` is enough fuel for everything
reachable from the root because ids strictly increase along every
root-reachable parent chain (proved below), so from the root this unfolds the
exact object graph the source returns. -/
def matN : Nat → BuildState → Nat → FNode
  | 0, _, _ => .dir "" none []
  | fuel + 1, st, i =>
    match st.nodes[i]? with
    | none => .dir "" none []
    | some nd =>
      if nd.ntype = "directory" then
        .dir nd.name nd.path? ((childIds st.edges i).map (matN fuel st))
      else
        .file nd.name (nd.path?.getD "")

/-- The tree rooted at node 0. -/
def materialize (st : BuildState) : FNode := matN st.nodes.length st 0

/-- Embedding of `file_utils.buildFileTree`. -/
def buildFileTree (tree : List Item) (ignorePatterns : List String) (maxDepth : Int) :
    FNode :=
  if tree.isEmpty then .dir "/" none []
  else materialize (buildState tree ignorePatterns maxDepth)

/-! ## countFiles and tree observations -/

mutual

/-- Embedding of `file_utils.countFiles`, returning (files, directories):
a directory node counts one directory plus the counts of its children, any
other node counts one file. -/
def countFiles : FNode → Nat × Nat
  | .file _ _ => (1, 0)
  | .dir _ _ cs =>
    let r := countFilesL cs
    (r.1, r.2 + 1)

/-- Sum of `countFiles` over a children list. -/
def countFilesL : List FNode → Nat × Nat
  | [] => (0, 0)
  | t :: ts =>
    let a := countFiles t
    let b := countFilesL ts
    (a.1 + b.1, a.2 + b.2)

end

mutual

/-- Every node of a tree, in preorder: the node itself followed by the
nodes of its children. -/
def nodesList : FNode → List FNode
  | .file n p => [.file n p]
  | .dir n p? cs => .dir n p? cs :: nodesListL cs

/-- `nodesList` over a children list. -/
def nodesListL : List FNode → List FNode
  | [] => []
  | t :: ts => nodesList t ++ nodesListL ts

end

mutual

/-- All `path` fields present in a tree (the root contributes none). -/
def treePaths : FNode → List String
  | .file _ p => [p]
  | .dir _ p? cs => p?.toList ++ treePathsL cs

/-- `treePaths` over a children list. -/
def treePathsL : List FNode → List String
  | [] => []
  | t :: ts => treePaths t ++ treePathsL ts

end

mutual

/-- The `path` fields of the directory nodes of a tree. -/
def dirPaths : FNode → List String
  | .file _ _ => []
  | .dir _ p? cs => p?.toList ++ dirPathsL cs

/-- `dirPaths` over a children list. -/
def dirPathsL : List FNode → List String
  | [] => []
  | t :: ts => dirPaths t ++ dirPathsL ts

end

mutual

/-- Structural identity of trees: same names, same kinds, and the same
parent/child relationships in the same order. -/
def structEq : FNode → FNode → Bool
  | .file n _, .file n' _ => n == n'
  | .dir n _ cs, .dir n' _ cs' => n == n' && structEqL cs cs'
  | _, _ => false

/-- `structEq` on children lists, position by position. -/
def structEqL : List FNode → List FNode → Bool
  | [], [] => true
  | t :: ts, t' :: ts' => structEq t t' && structEqL ts ts'
  | _, _ => false

end

/-! ## Exception-flow model of shouldIgnore (for the totality claim)

The only exception the source anticipates inside `shouldIgnore` is the
`re.error` of regex compilation or execution, caught per pattern.  The
model below keeps that exception visible in an `Except` value: the regex
step errors exactly when compilation fails, the handler replaces the error
by the substring check, and the loop threads the per-pattern results. -/

/-- The `re.match(regex_pattern, path)` step: errors when the generated
regex does not compile. -/
def matchStepE (pattern path : String) : Except Unit Bool :=
  match compileRegex pattern with
  | some items => .ok (matchItems items path.toList)
  | none => .error ()

/-- The try/except block of the per-pattern loop body: the `re.error`
raised by the regex step is caught and replaced by the substring check. -/
def patternCheckE (pattern path : String) : Except Unit Bool :=
  match matchStepE pattern path with
  | .ok b => .ok b
  | .error _ => .ok (containsSub pattern.toList path.toList)

/-- The pattern loop in the `Except` monad: an uncaught exception in any
iteration would propagate to the result. -/
def ignoreLoopE (path : String) : List String → Except Unit Bool
  | [] => .ok false
  | pattern :: rest =>
    if pattern = "" then ignoreLoopE path rest
    else do
      let b ← patternCheckE pattern path
      if b then .ok true else ignoreLoopE path rest

/-- `shouldIgnore` with the exception flow kept visible. -/
def shouldIgnoreE (path : String) (ignorePatterns : List String) : Except Unit Bool :=
  if path = "" || ignorePatterns.isEmpty then .ok false
  else ignoreLoopE path ignorePatterns

/-! ## TreeFetcher: the fallback of src/github_api.py -/

/-- An abstract remote directory structure: what the paginated contents
endpoint would reveal, one level at a time.  A real repository listing has
item names without slashes; that is a hypothesis of the bound theorem, not
of the definitions. -/
inductive FSItem where
  | blob (name : String)
  | tree (name : String) (children : List FSItem)

/-- A flat entry of the fallback result list (the sha and size metadata of
the source dicts play no role in the traversal and are not modelled). -/
structure SEntry where
  path : String
  type : String
deriving DecidableEq

/-- The full path of a child item: the contents endpoint returns paths of
the form `parent/name`. -/
def childPath (parent name : String) : String := parent ++ "/" ++ name

/-- Python `path.count("/")`. -/
def slashCount (s : String) : Nat := s.toList.countP (fun c => c == '/')

/-- Embedding of `github_api.processDirectory`, applied to the listed items
of the directory at `curPath`: every item is appended to the result, and a
child directory is recursed into only when `path.count("/") < 5` holds for
the current directory path. -/
def processDirectory (curPath : String) : List FSItem → List SEntry
  | [] => []
  | .blob name :: rest =>
    ⟨childPath curPath name, "blob"⟩ :: processDirectory curPath rest
  | .tree name cs :: rest =>
    ⟨childPath curPath name, "tree"⟩ ::
      ((if slashCount curPath < 5 then processDirectory (childPath curPath name) cs else [])
        ++ processDirectory curPath rest)

/-- Embedding of `github_api.buildManualTree`: list the root, append every
item, and recurse (unconditionally) into root-level directories. -/
def buildManualTree : List FSItem → List SEntry
  | [] => []
  | .blob name :: rest => ⟨name, "blob"⟩ :: buildManualTree rest
  | .tree name cs :: rest =>
    ⟨name, "tree"⟩ :: (processDirectory name cs ++ buildManualTree rest)

mutual

/-- Names produced by the remote side never contain a slash (GitHub path
segments); recursive over the abstract structure. -/
def namesOK : FSItem → Bool
  | .blob name => !(name.toList.contains '/')
  | .tree name cs => !(name.toList.contains '/') && namesOKL cs

/-- `namesOK` over a listing. -/
def namesOKL : List FSItem → Bool
  | [] => true
  | t :: ts => namesOK t && namesOKL ts

end

/-! ## Observation helpers used by the theorems -/

/-- Is this tree node a directory node? -/
def isDirNode : FNode → Bool
  | .dir _ _ _ => true
  | .file _ _ => false

/-- Is this tree node a file node? -/
def isFileNode (t : FNode) : Bool := !(isDirNode t)

/-- The entries the full pass (no patterns, no depth limit) turns into file
nodes: both fields present and the kind is not `"tree"`. -/
def isFileEntry (it : Item) : Bool :=
  it.path.isSome && it.type.isSome && !(it.type == some "tree")

/-- Is the node with id `i` a directory node of the log? -/
def isDirAt (st : BuildState) (i : Nat) : Bool :=
  match st.nodes[i]? with
  | some nd => nd.ntype == "directory"
  | none => false

/-- Is the node with id `i` a file node of the log? -/
def isFileAt (st : BuildState) (i : Nat) : Bool :=
  match st.nodes[i]? with
  | some nd => !(nd.ntype == "directory")
  | none => false

/-- The `path` field of the node with id `i`. -/
def pathAt (st : BuildState) (i : Nat) : Option String :=
  (st.nodes[i]?).bind (fun nd => nd.path?)

/-- The depth the source computes for a path: number of slash-separated
segments minus one (as an integer, to compare against `maxDepth`). -/
def pathDepth (p : String) : Int := ((splitSlash p).length : Int) - 1

/-- Every node of the creation log that carries a path has depth at most
`d`. -/
def nodesDepthLE (st : BuildState) (d : Int) : Prop :=
  ∀ nd ∈ st.nodes, ∀ p, nd.path? = some p → pathDepth p ≤ d

/-- The `path` fields of the directory nodes of the creation log. -/
def dirNodePaths (st : BuildState) : List String :=
  st.nodes.filterMap (fun nd => if nd.ntype = "directory" then nd.path? else none)

/-- The child ids of node `i` restricted to larger ids.  Along everything
reachable from the root this agrees with `childIds` (no root-reachable node
has a self-edge, proved below), and the restriction makes the recursion
well-founded without fuel. -/
def wChildIds (st : BuildState) (i : Nat) : List Nat :=
  (st.edges.filter (fun e => e.1 == i && decide (i < e.2))).map (fun e => e.2)

/-- Members of `wChildIds st i` are larger than `i`. -/
def wChildIds_gt (st : BuildState) (i : Nat) : ∀ c ∈ wChildIds st i, i < c := by
  intro c hc
  unfold wChildIds at hc
  simp only [List.mem_map, List.mem_filter, Bool.and_eq_true, beq_iff_eq,
    decide_eq_true_eq] at hc
  obtain ⟨e, ⟨-, -, h2⟩, rfl⟩ := hc
  exact h2

/-- Fuel-free materialization used by the proofs, recursing only into
children of larger id. -/
def matW (st : BuildState) (i : Nat) : FNode :=
  if h : i < st.nodes.length then
    match st.nodes[i]? with
    | none => .dir "" none []
    | some nd =>
      if nd.ntype = "directory" then
        .dir nd.name nd.path? ((wChildIds st i).attach.map (fun c => matW st c.1))
      else .file nd.name (nd.path?.getD "")
  else .dir "" none []
termination_by st.nodes.length - i
decreasing_by exact Nat.sub_lt_sub_left h (wChildIds_gt st i c.1 c.2)

/-- The node ids visited by `matW`, in preorder. -/
def matIdsW (st : BuildState) (i : Nat) : List Nat :=
  if h : i < st.nodes.length then
    match st.nodes[i]? with
    | none => []
    | some nd =>
      if nd.ntype = "directory" then
        i :: ((wChildIds st i).attach.map (fun c => matIdsW st c.1)).flatten
      else [i]
  else []
termination_by st.nodes.length - i
decreasing_by exact Nat.sub_lt_sub_left h (wChildIds_gt st i c.1 c.2)

/-- The structural invariant of every state the builder reaches: the root
dict sits at id 0; every recorded append points from an existing directory to
an existing later-created node; every node receives at most one append (its
creation); the lookup table holds only existing directory ids and always
resolves the root key; and no node id is visited more than once from the
root. -/
structure Good (st : BuildState) : Prop where
  root0 : st.nodes[0]? = some rootData
  src_lt : ∀ e ∈ st.edges, e.1 < st.nodes.length
  targ_lt : ∀ e ∈ st.edges, e.2 < st.nodes.length
  targ_pos : ∀ e ∈ st.edges, 1 ≤ e.2
  edge_le : ∀ e ∈ st.edges, e.1 ≤ e.2
  src_dir : ∀ e ∈ st.edges, isDirAt st e.1 = true
  targ_nodup : (st.edges.map (fun e => e.2)).Nodup
  dir_lt : ∀ b ∈ st.dirIdx, b.2 < st.nodes.length
  dir_isdir : ∀ b ∈ st.dirIdx, isDirAt st b.2 = true
  root_mem : ("/", (0 : Nat)) ∈ st.dirIdx
  mset_le : Multiset.ofList (matIdsW st 0) ≤ Multiset.range st.nodes.length

/-- The exact-coverage property behind the node counts: the ids visited
from the root are exactly the created node ids, once each.  It can fail:
a tree-typed entry whose path is `"/"` hijacks the root key of the lookup
table and the nodes attached below it are never visited. -/
def MsetEq (st : BuildState) : Prop :=
  Multiset.ofList (matIdsW st 0) = Multiset.range st.nodes.length

/-! ## Concrete inputs referenced by the claim theorems -/

/-- The one-entry input of the missing-parent synthesis scenario. -/
def synthDemo : List Item := [⟨some "a/b/c.txt", some "blob"⟩]

/-- The two-entry input of the depth-bound scenario. -/
def depthDemo : List Item := [⟨some "a/b/c.txt", some "blob"⟩, ⟨some "a/b.txt", some "blob"⟩]

/-- Input (directory entry plus an entry below it) for the directory-pattern
scenario. -/
def nmDemo : List Item :=
  [⟨some "node_modules", some "tree"⟩, ⟨some "node_modules/x.js", some "blob"⟩]

/-- Duplicate directory entries for the same path. -/
def dupDemo : List Item := [⟨some "a", some "tree"⟩, ⟨some "a", some "tree"⟩]

/-- A tree-typed entry whose path is the root path, plus an ordinary file. -/
def rootHijackDemo : List Item := [⟨some "/", some "tree"⟩, ⟨some "x", some "blob"⟩]

/-- Children of one directory whose insertion order differs from the
alphabetical order of their names. -/
def orderDemo : List Item := [⟨some "a/b-", some "blob"⟩, ⟨some "a/b/c", some "blob"⟩]

/-- A remote directory chain deep enough to cross the recursion ceiling. -/
def chainFS : List FSItem :=
  [.tree "n0" [.tree "n1" [.tree "n2" [.tree "n3" [.tree "n4" [.tree "n5"
    [.tree "n6" [.blob "deep"]]]]]]]]

/-! # Theorems -/

/-! ## Unfolding lemmas for the regex matcher -/

@[simp] theorem matchItems_nil (s : List Char) : matchItems [] s = true := by
  cases s <;> rfl

@[simp] theorem matchItems_once_nil (t : RTok) (ts : List RItem) :
    matchItems (.once t :: ts) [] = false := rfl

@[simp] theorem matchItems_once_cons (t : RTok) (ts : List RItem) (x : Char) (xs : List Char) :
    matchItems (.once t :: ts) (x :: xs) = (matchTok t x && matchItems ts xs) := rfl

@[simp] theorem matchItems_star_nil (t : RTok) (ts : List RItem) :
    matchItems (.star t :: ts) [] = matchItems ts [] := rfl

@[simp] theorem matchItems_star_cons (t : RTok) (ts : List RItem) (x : Char) (xs : List Char) :
    matchItems (.star t :: ts) (x :: xs)
      = (matchItems ts (x :: xs) || (matchTok t x && matchItems (.star t :: ts) xs)) := rfl

/-- A starred atom can always be skipped. -/
theorem matchItems_star_of (t : RTok) (ts : List RItem) (s : List Char)
    (h : matchItems ts s = true) : matchItems (.star t :: ts) s = true := by
  cases s with
  | nil => simpa using h
  | cons x xs => simp [h]

/-- A run of literal atoms consumes exactly its own characters. -/
theorem matchItems_lits (cs : List Char) (ts : List RItem) (r : List Char)
    (h : matchItems ts r = true) :
    matchItems (cs.map (fun c => RItem.once (.lit c)) ++ ts) (cs ++ r) = true := by
  induction cs with
  | nil => simpa using h
  | cons c cs ih => simp [matchTok, ih]

/-! ## Structural identity is reflexive -/

mutual

theorem structEq_refl : (t : FNode) → structEq t t = true
  | .file _ _ => by simp [structEq]
  | .dir _ _ cs => by simp [structEq, structEqL_refl cs]

theorem structEqL_refl : (l : List FNode) → structEqL l l = true
  | [] => rfl
  | t :: ts => by simp [structEqL, structEq_refl t, structEqL_refl ts]

end

/-! ## The creation log only grows, and the root stays at id 0 -/

/-- `synthStep` only appends to the node log. -/
theorem synthStep_nodes_grow (parts : List String) (st : BuildState) (i : Nat)
    (part current_path : String) :
    ∃ s, (synthStep parts st i part current_path).nodes = st.nodes ++ s := by
  unfold synthStep
  split
  · cases h : lookupDir st (popOf parts i) with
    | none => exact ⟨[], by simp⟩
    | some pid => exact ⟨_, rfl⟩
  · exact ⟨[], by simp⟩

/-- `synthLoop` only appends to the node log. -/
theorem synthLoop_nodes_grow (parts : List String) :
    ∀ (rest : List String) (st : BuildState) (i : Nat) (cur : String),
      ∃ s, (synthLoop parts st i cur rest).nodes = st.nodes ++ s := by
  intro rest
  induction rest with
  | nil => exact fun st i cur => ⟨[], by simp [synthLoop]⟩
  | cons part rest ih =>
    intro st i cur
    rw [synthLoop]
    obtain ⟨s₁, h₁⟩ :=
      synthStep_nodes_grow parts st i part (if i = 0 then part else cur ++ "/" ++ part)
    obtain ⟨s₂, h₂⟩ := ih (synthStep parts st i part (if i = 0 then part else cur ++ "/" ++ part))
      (i + 1) (if i = 0 then part else cur ++ "/" ++ part)
    exact ⟨s₁ ++ s₂, by rw [h₂, h₁, List.append_assoc]⟩

/-- `entryStep` only appends to the node log. -/
theorem entryStep_nodes_grow (st1 : BuildState) (parent_path name item_type path : String) :
    ∃ s, (entryStep st1 parent_path name item_type path).nodes = st1.nodes ++ s := by
  unfold entryStep
  refine ⟨[⟨name, item_type, some path⟩], ?_⟩
  dsimp only
  split <;> split <;> rfl

/-- Node-log extension composes. -/
theorem nodes_grow_trans {st1 st2 st3 : BuildState}
    (h1 : ∃ s, st2.nodes = st1.nodes ++ s) (h2 : ∃ s, st3.nodes = st2.nodes ++ s) :
    ∃ s, st3.nodes = st1.nodes ++ s := by
  obtain ⟨a, ha⟩ := h1
  obtain ⟨b, hb⟩ := h2
  exact ⟨a ++ b, by rw [hb, ha, List.append_assoc]⟩

/-- Node-log extension survives an if between an extending state and the
original. -/
theorem ite_nodes_grow {c : Prop} [Decidable c] {st stA : BuildState}
    (hA : ∃ s, stA.nodes = st.nodes ++ s) :
    ∃ s, (if c then stA else st).nodes = st.nodes ++ s := by
  split
  · exact hA
  · exact ⟨[], by simp⟩

/-- `processItem` only appends to the node log. -/
theorem processItem_nodes_grow (pats : List String) (d : Int) (st : BuildState) (it : Item) :
    ∃ s, (processItem pats d st it).nodes = st.nodes ++ s := by
  rcases it with ⟨p?, t?⟩
  cases p? with
  | none => exact ⟨[], by simp [processItem]⟩
  | some path =>
    cases t? with
    | none => exact ⟨[], by simp [processItem]⟩
    | some ty =>
      simp only [processItem]
      split
      · exact ⟨[], by simp⟩
      · split
        · exact ⟨[], by simp⟩
        · exact nodes_grow_trans (ite_nodes_grow (synthLoop_nodes_grow _ _ _ _ _))
            (entryStep_nodes_grow _ _ _ _ _)

/-- The whole pass only appends to the node log. -/
theorem foldl_nodes_grow (pats : List String) (d : Int) :
    ∀ (l : List Item) (st : BuildState),
      ∃ s, (l.foldl (processItem pats d) st).nodes = st.nodes ++ s := by
  intro l
  induction l with
  | nil => exact fun st => ⟨[], by simp⟩
  | cons it l ih =>
    intro st
    obtain ⟨s₁, h₁⟩ := processItem_nodes_grow pats d st it
    obtain ⟨s₂, h₂⟩ := ih (processItem pats d st it)
    exact ⟨s₁ ++ s₂, by simp only [List.foldl_cons]; rw [h₂, h₁, List.append_assoc]⟩

/-- After the pass, id 0 still holds the root node dict. -/
theorem buildState_root (e : List Item) (pats : List String) (d : Int) :
    (buildState e pats d).nodes[0]? = some rootData ∧ 0 < (buildState e pats d).nodes.length := by
  obtain ⟨s, hs⟩ := foldl_nodes_grow pats d (sortItems e) initState
  unfold buildState
  rw [hs]
  constructor
  · simp [initState]
  · simp [initState]

/-! ## The exception-aware shouldIgnore never raises -/

/-- The per-pattern try/except always produces a value, and it is the value
`matchesPattern` computes. -/
theorem patternCheckE_ok (pattern path : String) :
    patternCheckE pattern path = .ok (matchesPattern pattern path) := by
  unfold patternCheckE matchStepE matchesPattern
  cases h : compileRegex pattern <;> simp

/-- The pattern loop in the `Except` monad computes the `List.any` of the
pure function, with no uncaught exception. -/
theorem ignoreLoopE_ok (path : String) :
    ∀ pats : List String,
      ignoreLoopE path pats
        = .ok (pats.any fun pattern => if pattern = "" then false
            else matchesPattern pattern path) := by
  intro pats
  induction pats with
  | nil => rfl
  | cons pattern rest ih =>
    by_cases hp : pattern = ""
    · simp [ignoreLoopE, hp, ih]
    · cases hm : matchesPattern pattern path <;>
        · simp [ignoreLoopE, hp, patternCheckE_ok, hm, ih]
          try rfl

/-- `shouldIgnoreE` always returns `ok`, with the value of `shouldIgnore`. -/
theorem shouldIgnoreE_ok (path : String) (pats : List String) :
    shouldIgnoreE path pats = .ok (shouldIgnore path pats) := by
  unfold shouldIgnoreE shouldIgnore
  split
  · rfl
  · exact ignoreLoopE_ok path pats

/-! ## Slash counting for the fetcher bound -/

theorem slashCount_append (s t : String) :
    slashCount (s ++ t) = slashCount s + slashCount t := by
  simp [slashCount, List.countP_append]

theorem slashCount_no_slash (s : String) (h : s.toList.contains '/' = false) :
    slashCount s = 0 := by
  have h' : '/' ∉ s.toList := by simpa using h
  rw [slashCount, List.countP_eq_zero]
  intro a ha
  simp only [beq_iff_eq]
  rintro rfl
  exact h' ha

theorem slashCount_childPath (p n : String) (h : n.toList.contains '/' = false) :
    slashCount (childPath p n) = slashCount p + 1 := by
  unfold childPath
  rw [slashCount_append, slashCount_append, slashCount_no_slash n h]
  have : slashCount "/" = 1 := by decide
  omega

/-- Depth bound for the recursive directory processing: called on a
directory whose path has at most five slashes (every actual call site
satisfies this), every produced entry path has at most six slashes. -/
theorem processDirectory_bound :
    ∀ (items : List FSItem) (curPath : String), namesOKL items = true →
      slashCount curPath ≤ 5 →
      ∀ e ∈ processDirectory curPath items, slashCount e.path ≤ 6
  | [], _, _, _ => by simp [processDirectory]
  | .blob name :: rest, curPath, hok, hc => by
    rw [namesOKL] at hok
    simp only [Bool.and_eq_true] at hok
    intro e he
    rw [processDirectory] at he
    rcases List.mem_cons.1 he with rfl | he'
    · have hn : name.toList.contains '/' = false := by
        have := hok.1
        rw [namesOK] at this
        simpa using this
      simp only [slashCount_childPath curPath name hn]
      omega
    · exact processDirectory_bound rest curPath hok.2 hc e he'
  | .tree name cs :: rest, curPath, hok, hc => by
    rw [namesOKL] at hok
    simp only [Bool.and_eq_true] at hok
    have hn : name.toList.contains '/' = false := by
      have := hok.1
      rw [namesOK] at this
      simp only [Bool.and_eq_true] at this
      simpa using this.1
    have hcs : namesOKL cs = true := by
      have := hok.1
      rw [namesOK] at this
      simp only [Bool.and_eq_true] at this
      exact this.2
    intro e he
    rw [processDirectory] at he
    rcases List.mem_cons.1 he with rfl | he'
    · simp only [slashCount_childPath curPath name hn]
      omega
    · rcases List.mem_append.1 he' with h1 | h2
      · by_cases hlt : slashCount curPath < 5
        · rw [if_pos hlt] at h1
          have hchild : slashCount (childPath curPath name) ≤ 5 := by
            rw [slashCount_childPath curPath name hn]; omega
          exact processDirectory_bound cs (childPath curPath name) hcs hchild e h1
        · rw [if_neg hlt] at h1
          simp at h1
      · exact processDirectory_bound rest curPath hok.2 hc e h2

/-- Every entry the fallback fetcher produces has a path with at most six
slashes: recursion stops expanding once the current path has five. -/
theorem buildManualTree_bound :
    ∀ (items : List FSItem), namesOKL items = true →
      ∀ e ∈ buildManualTree items, slashCount e.path ≤ 6
  | [], _ => by simp [buildManualTree]
  | .blob name :: rest, hok => by
    rw [namesOKL] at hok
    simp only [Bool.and_eq_true] at hok
    intro e he
    rw [buildManualTree] at he
    rcases List.mem_cons.1 he with rfl | he'
    · have hn : name.toList.contains '/' = false := by
        have := hok.1
        rw [namesOK] at this
        simpa using this
      simp only [slashCount_no_slash name hn]
      omega
    · exact buildManualTree_bound rest hok.2 e he'
  | .tree name cs :: rest, hok => by
    rw [namesOKL] at hok
    simp only [Bool.and_eq_true] at hok
    have hn : name.toList.contains '/' = false := by
      have := hok.1
      rw [namesOK] at this
      simp only [Bool.and_eq_true] at this
      simpa using this.1
    have hcs : namesOKL cs = true := by
      have := hok.1
      rw [namesOK] at this
      simp only [Bool.and_eq_true] at this
      exact this.2
    intro e he
    rw [buildManualTree] at he
    rcases List.mem_cons.1 he with rfl | he'
    · simp only [slashCount_no_slash name hn]
      omega
    · rcases List.mem_append.1 he' with h1 | h2
      · exact processDirectory_bound cs name hcs
          (by rw [slashCount_no_slash name hn]; omega) e h1
      · exact buildManualTree_bound rest hok.2 e h2

/-! ## Splitting and joining paths round-trip -/

theorem splitSlashC_ne_nil (l : List Char) : splitSlashC l ≠ [] := by
  induction l with
  | nil => simp [splitSlashC]
  | cons c cs ih =>
    cases h : splitSlashC cs with
    | nil => exact absurd h ih
    | cons r rs => simp only [splitSlashC, h] ; split <;> simp

theorem splitSlashC_no_slash : ∀ (l : List Char), ∀ p ∈ splitSlashC l, '/' ∉ p := by
  intro l
  induction l with
  | nil => intro p hp; simp [splitSlashC] at hp; simp [hp]
  | cons c cs ih =>
    intro p hp
    cases h : splitSlashC cs with
    | nil => exact absurd h (splitSlashC_ne_nil cs)
    | cons r rs =>
      simp only [splitSlashC, h] at hp
      by_cases hc : c = '/'
      · rw [if_pos hc] at hp
        rcases List.mem_cons.1 hp with rfl | hp'
        · simp
        · exact ih p (h ▸ hp')
      · rw [if_neg hc] at hp
        rcases List.mem_cons.1 hp with rfl | hp'
        · intro hmem
          rcases List.mem_cons.1 hmem with heq | hmem'
          · exact hc heq.symm
          · exact ih r (h ▸ List.mem_cons_self r rs) hmem'
        · exact ih p (h ▸ List.mem_cons.2 (Or.inr hp'))

theorem splitSlashC_single (l : List Char) (h : '/' ∉ l) : splitSlashC l = [l] := by
  induction l with
  | nil => rfl
  | cons c cs ih =>
    have hc : ¬ c = '/' := fun hc => h (hc ▸ List.mem_cons_self c cs)
    have hcs : '/' ∉ cs := fun hm => h (List.mem_cons.2 (Or.inr hm))
    simp only [splitSlashC, ih hcs]
    rw [if_neg hc]

theorem splitSlashC_append (x r : List Char) (h : '/' ∉ x) :
    splitSlashC (x ++ '/' :: r) = x :: splitSlashC r := by
  induction x with
  | nil =>
    cases hr : splitSlashC r with
    | nil => exact absurd hr (splitSlashC_ne_nil r)
    | cons a as => simp [splitSlashC, hr]
  | cons c x' ih =>
    have hc : ¬ c = '/' := fun hc => h (hc ▸ List.mem_cons_self c x')
    have hx' : '/' ∉ x' := fun hm => h (List.mem_cons.2 (Or.inr hm))
    show splitSlashC (c :: (x' ++ '/' :: r)) = (c :: x') :: splitSlashC r
    rw [splitSlashC, ih hx']
    show (if c = '/' then [] :: x' :: splitSlashC r else (c :: x') :: splitSlashC r)
        = (c :: x') :: splitSlashC r
    rw [if_neg hc]

theorem joinSlashC_roundtrip :
    ∀ ps : List (List Char), ps ≠ [] → (∀ p ∈ ps, '/' ∉ p) →
      splitSlashC (joinSlashC ps) = ps
  | [], h, _ => absurd rfl h
  | [x], _, h => by
    show splitSlashC x = [x]
    exact splitSlashC_single x (h x (by simp))
  | x :: y :: rest, _, h => by
    show splitSlashC (x ++ '/' :: joinSlashC (y :: rest)) = x :: y :: rest
    rw [splitSlashC_append x _ (h x (by simp))]
    rw [joinSlashC_roundtrip (y :: rest) (by simp) (fun p hp => h p (by simp [hp]))]

theorem joinSlash_data :
    ∀ l : List String, (joinSlash l).data = joinSlashC (l.map String.data)
  | [] => rfl
  | [x] => rfl
  | x :: y :: rest => by
    show (x ++ "/" ++ joinSlash (y :: rest)).data
        = x.data ++ '/' :: joinSlashC ((y :: rest).map String.data)
    rw [String.data_append, String.data_append, joinSlash_data (y :: rest)]
    simp

theorem splitSlash_joinSlash (l : List String) (hne : l ≠ [])
    (h : ∀ p ∈ l, '/' ∉ p.data) : splitSlash (joinSlash l) = l := by
  unfold splitSlash
  have htl : (joinSlash l).toList = joinSlashC (l.map String.data) := joinSlash_data l
  rw [htl]
  rw [joinSlashC_roundtrip (l.map String.data) (by simpa using hne)
    (by intro p hp
        simp only [List.mem_map] at hp
        obtain ⟨q, hq, rfl⟩ := hp
        exact h q hq)]
  have hid : (fun (d : List Char) => (⟨d⟩ : String)) ∘ String.data = id := by
    funext q
    rfl
  rw [List.map_map, hid, List.map_id]

theorem splitSlash_ne_nil (s : String) : splitSlash s ≠ [] := by
  unfold splitSlash
  simp [splitSlashC_ne_nil]

theorem splitSlash_no_slash (s : String) : ∀ p ∈ splitSlash s, '/' ∉ p.data := by
  unfold splitSlash
  intro p hp
  simp only [List.mem_map] at hp
  obtain ⟨q, hq, rfl⟩ := hp
  exact splitSlashC_no_slash _ q hq

theorem pathDepth_join_take (path : String) (k : Nat) (h1 : 1 ≤ k)
    (h2 : k ≤ (splitSlash path).length) :
    pathDepth (joinSlash ((splitSlash path).take k)) = (k : Int) - 1 := by
  unfold pathDepth
  rw [splitSlash_joinSlash ((splitSlash path).take k)
    (by
      have : ((splitSlash path).take k).length = k := by
        rw [List.length_take]
        omega
      intro hnil
      rw [hnil] at this
      simp at this
      omega)
    (fun p hp => splitSlash_no_slash path p (List.mem_of_mem_take hp))]
  rw [List.length_take]
  have : min k (splitSlash path).length = k := by omega
  rw [this]

/-- Appending one element to a joined path. -/
theorem joinSlash_snoc (l : List String) (x : String) :
    joinSlash (l ++ [x]) = if l = [] then x else joinSlash l ++ "/" ++ x := by
  induction l with
  | nil => rfl
  | cons y l ih =>
    rw [if_neg (by simp)]
    cases l with
    | nil => rfl
    | cons z l' =>
      show y ++ "/" ++ joinSlash ((z :: l') ++ [x])
          = y ++ "/" ++ joinSlash (z :: l') ++ "/" ++ x
      rw [ih, if_neg (by simp)]
      simp [String.append_assoc]

/-! ## Depth bound invariant of the builder -/

/-- `synthStep` preserves the depth bound when the path it may create
satisfies it. -/
theorem synthStep_depth (parts : List String) (st : BuildState) (i : Nat)
    (part current_path : String) (d : Int)
    (hcur : pathDepth current_path ≤ d) (hst : nodesDepthLE st d) :
    nodesDepthLE (synthStep parts st i part current_path) d := by
  unfold synthStep
  split
  · cases h : lookupDir st (popOf parts i) with
    | none => exact hst
    | some pid =>
      intro nd hmem p hp
      rcases List.mem_append.1 hmem with hold | hnew
      · exact hst nd hold p hp
      · simp only [List.mem_singleton] at hnew
        subst hnew
        simp only at hp
        cases hp
        exact hcur
  · exact hst

/-- The synthesis loop preserves the depth bound: every path it creates is
the join of a proper prefix of `parts`, whose depth the hypothesis bounds. -/
theorem synthLoop_depth (d : Int) (parts : List String)
    (hd : ∀ k, 1 ≤ k → k ≤ parts.length - 1 →
      pathDepth (joinSlash (parts.take k)) ≤ d) :
    ∀ (rest pre : List String) (st : BuildState), parts.dropLast = pre ++ rest →
      nodesDepthLE st d →
      nodesDepthLE (synthLoop parts st pre.length (joinSlash pre) rest) d := by
  intro rest
  induction rest with
  | nil => intro pre st _ hst; exact hst
  | cons part rest' ih =>
    intro pre st hsplit hst
    rw [synthLoop]
    have hcur : (if pre.length = 0 then part else joinSlash pre ++ "/" ++ part)
        = joinSlash (pre ++ [part]) := by
      rw [joinSlash_snoc]
      cases pre with
      | nil => simp
      | cons a l => simp
    have hlen : pre.length + 1 ≤ parts.length - 1 := by
      have h1 : parts.dropLast.length = pre.length + (rest'.length + 1) := by
        rw [hsplit]; simp
      have h2 : parts.dropLast.length = parts.length - 1 := List.length_dropLast parts
      omega
    have htake : parts.take (pre.length + 1) = pre ++ [part] := by
      have hdl : parts.take (pre.length + 1) = parts.dropLast.take (pre.length + 1) := by
        rw [List.dropLast_eq_take, List.take_take]
        congr 1
        omega
      rw [hdl, hsplit, List.take_append]
      simp
    have hdep : pathDepth (joinSlash (pre ++ [part])) ≤ d := by
      rw [← htake]
      exact hd (pre.length + 1) (by omega) hlen
    rw [hcur]
    have hres := ih (pre ++ [part])
      (synthStep parts st pre.length part (joinSlash (pre ++ [part])))
      (by rw [hsplit, List.append_assoc]; rfl)
      (synthStep_depth parts st pre.length part (joinSlash (pre ++ [part])) d hdep hst)
    simpa using hres

/-- The node log of `entryStep`, exactly. -/
theorem entryStep_nodes (st1 : BuildState) (pp name ty path : String) :
    (entryStep st1 pp name ty path).nodes = st1.nodes ++ [⟨name, ty, some path⟩] := by
  unfold entryStep
  dsimp only
  split <;> split <;> rfl

/-- `entryStep` preserves the depth bound when the created path satisfies
it. -/
theorem entryStep_depth (st1 : BuildState) (pp name ty path : String) (d : Int)
    (hpath : pathDepth path ≤ d) (hst : nodesDepthLE st1 d) :
    nodesDepthLE (entryStep st1 pp name ty path) d := by
  intro nd hmem p hp
  rw [entryStep_nodes] at hmem
  rcases List.mem_append.1 hmem with hold | hnew
  · exact hst nd hold p hp
  · simp only [List.mem_singleton] at hnew
    subst hnew
    simp only at hp
    cases hp
    exact hpath

/-- `processItem` preserves the depth bound when `maxDepth` is
nonnegative. -/
theorem processItem_depth (pats : List String) (d : Int) (hd : 0 ≤ d)
    (st : BuildState) (it : Item) (hst : nodesDepthLE st d) :
    nodesDepthLE (processItem pats d st it) d := by
  rcases it with ⟨p?, t?⟩
  cases p? with
  | none => exact hst
  | some path =>
    cases t? with
    | none => exact hst
    | some ty =>
      simp only [processItem]
      split
      · exact hst
      · split
        · exact hst
        · rename_i hguard
          have hlenpos : 1 ≤ (splitSlash path).length := by
            have := splitSlash_ne_nil path
            cases h : splitSlash path with
            | nil => exact absurd h this
            | cons a l => simp
          have hdp : pathDepth path ≤ d := by
            unfold pathDepth
            push_neg at hguard
            have := hguard hd
            omega
          have hsyn : nodesDepthLE
              (synthLoop (splitSlash path) st 0 "" (splitSlash path).dropLast) d := by
            have hdk : ∀ k, 1 ≤ k → k ≤ (splitSlash path).length - 1 →
                pathDepth (joinSlash ((splitSlash path).take k)) ≤ d := by
              intro k hk1 hk2
              rw [pathDepth_join_take path k hk1 (by omega)]
              have hdp' : ((splitSlash path).length : Int) - 1 ≤ d := hdp
              omega
            exact synthLoop_depth d (splitSlash path) hdk
              (splitSlash path).dropLast [] st (by simp) hst
          apply entryStep_depth _ _ _ _ _ _ hdp
          split <;> split <;> first | exact hsyn | exact hst

/-- Depth bound of the whole pass. -/
theorem buildState_depth (e : List Item) (pats : List String) (d : Int) (hd : 0 ≤ d) :
    nodesDepthLE (buildState e pats d) d := by
  unfold buildState
  have hfold : ∀ (l : List Item) (st : BuildState), nodesDepthLE st d →
      nodesDepthLE (l.foldl (processItem pats d) st) d := by
    intro l
    induction l with
    | nil => exact fun st h => h
    | cons it l ih => exact fun st h => ih _ (processItem_depth pats d hd st it h)
  apply hfold
  intro nd hmem p hp
  simp only [initState, List.mem_singleton] at hmem
  subst hmem
  simp [rootData] at hp

/-- Paths collected from a mapped children list come from some member. -/
theorem treePathsL_map {α : Type} (f : α → FNode) :
    ∀ (l : List α) (p : String), p ∈ treePathsL (l.map f) → ∃ x ∈ l, p ∈ treePaths (f x)
  | [], p, hp => by simp [treePathsL] at hp
  | x :: xs, p, hp => by
    rw [List.map_cons, treePathsL] at hp
    rcases List.mem_append.1 hp with h1 | h2
    · exact ⟨x, by simp, h1⟩
    · obtain ⟨y, hy, hyp⟩ := treePathsL_map f xs p h2
      exact ⟨y, by simp [hy], hyp⟩

/-- Every path in a materialized tree is the path of some logged node (or
the empty-string default of a file node with no path). -/
theorem treePaths_matN :
    ∀ (fuel : Nat) (st : BuildState) (i : Nat) (p : String),
      p ∈ treePaths (matN fuel st i) →
      (∃ nd ∈ st.nodes, nd.path? = some p) ∨ p = "" := by
  intro fuel
  induction fuel with
  | zero =>
    intro st i p hp
    rw [matN, treePaths] at hp
    simp [treePathsL] at hp
  | succ fuel ih =>
    intro st i p hp
    rw [matN] at hp
    cases hnd : st.nodes[i]? with
    | none =>
      simp only [hnd] at hp
      rw [treePaths] at hp
      simp [treePathsL] at hp
    | some nd =>
      simp only [hnd] at hp
      have hmem : nd ∈ st.nodes := List.getElem?_mem hnd
      by_cases hdir : nd.ntype = "directory"
      · rw [if_pos hdir, treePaths] at hp
        rcases List.mem_append.1 hp with h1 | h2
        · left
          refine ⟨nd, hmem, ?_⟩
          cases hq : nd.path? with
          | none => rw [hq] at h1; simp at h1
          | some q =>
            rw [hq] at h1
            simp only [Option.toList_some, List.mem_singleton] at h1
            rw [h1]
        · obtain ⟨c, _, hcp⟩ := treePathsL_map (matN fuel st) (childIds st.edges i) p h2
          exact ih st c p hcp
      · rw [if_neg hdir, treePaths] at hp
        simp only [List.mem_singleton] at hp
        cases hq : nd.path? with
        | none =>
          right
          simp [hp, hq]
        | some q =>
          left
          refine ⟨nd, hmem, ?_⟩
          simp [hp, hq]

/-! ## Equation lemmas for the id materializer -/

theorem lt_of_getElem?_some {α : Type} {l : List α} {i : Nat} {a : α}
    (h : l[i]? = some a) : i < l.length := by
  by_contra hge
  push_neg at hge
  rw [List.getElem?_eq_none hge] at h
  cases h

theorem matIdsW_of_ge (st : BuildState) (i : Nat) (h : st.nodes.length ≤ i) :
    matIdsW st i = [] := by
  rw [matIdsW, dif_neg (by omega)]

theorem matIdsW_none (st : BuildState) (i : Nat) (hlt : i < st.nodes.length)
    (h : st.nodes[i]? = none) : matIdsW st i = [] := by
  rw [matIdsW, dif_pos hlt]
  simp only [h]

theorem matIdsW_file (st : BuildState) (i : Nat) (nd : NodeData)
    (h : st.nodes[i]? = some nd) (hf : ¬ nd.ntype = "directory") :
    matIdsW st i = [i] := by
  rw [matIdsW, dif_pos (lt_of_getElem?_some h)]
  simp only [h]
  rw [if_neg hf]

theorem matIdsW_dir (st : BuildState) (i : Nat) (nd : NodeData)
    (h : st.nodes[i]? = some nd) (hd : nd.ntype = "directory") :
    matIdsW st i = i :: ((wChildIds st i).map (matIdsW st)).flatten := by
  rw [matIdsW, dif_pos (lt_of_getElem?_some h)]
  simp only [h]
  rw [if_pos hd]
  congr 2
  exact List.attach_map_val _ _

theorem matW_of_ge (st : BuildState) (i : Nat) (h : st.nodes.length ≤ i) :
    matW st i = .dir "" none [] := by
  rw [matW, dif_neg (by omega)]

theorem matW_none (st : BuildState) (i : Nat) (hlt : i < st.nodes.length)
    (h : st.nodes[i]? = none) : matW st i = .dir "" none [] := by
  rw [matW, dif_pos hlt]
  simp only [h]

theorem matW_file (st : BuildState) (i : Nat) (nd : NodeData)
    (h : st.nodes[i]? = some nd) (hf : ¬ nd.ntype = "directory") :
    matW st i = .file nd.name (nd.path?.getD "") := by
  rw [matW, dif_pos (lt_of_getElem?_some h)]
  simp only [h]
  rw [if_neg hf]

theorem matW_dir (st : BuildState) (i : Nat) (nd : NodeData)
    (h : st.nodes[i]? = some nd) (hd : nd.ntype = "directory") :
    matW st i = .dir nd.name nd.path? ((wChildIds st i).map (matW st)) := by
  rw [matW, dif_pos (lt_of_getElem?_some h)]
  simp only [h]
  rw [if_pos hd]
  congr 1
  exact List.attach_map_val _ _

theorem matN_succ_none (fuel : Nat) (st : BuildState) (i : Nat)
    (h : st.nodes[i]? = none) : matN (fuel + 1) st i = .dir "" none [] := by
  rw [matN]
  simp only [h]

theorem matN_succ_file (fuel : Nat) (st : BuildState) (i : Nat) (nd : NodeData)
    (h : st.nodes[i]? = some nd) (hf : ¬ nd.ntype = "directory") :
    matN (fuel + 1) st i = .file nd.name (nd.path?.getD "") := by
  rw [matN]
  simp only [h]
  rw [if_neg hf]

theorem matN_succ_dir (fuel : Nat) (st : BuildState) (i : Nat) (nd : NodeData)
    (h : st.nodes[i]? = some nd) (hd : nd.ntype = "directory") :
    matN (fuel + 1) st i
      = .dir nd.name nd.path? ((childIds st.edges i).map (matN fuel st)) := by
  rw [matN]
  simp only [h]
  rw [if_pos hd]

/-! ## wChildIds lemmas -/

/-- A restricted child comes from an edge. -/
theorem wChildIds_mem (st : BuildState) (i c : Nat) (hc : c ∈ wChildIds st i) :
    (i, c) ∈ st.edges ∧ i < c := by
  unfold wChildIds at hc
  simp only [List.mem_map, List.mem_filter, Bool.and_eq_true, beq_iff_eq,
    decide_eq_true_eq] at hc
  obtain ⟨e, ⟨he, h1, h2⟩, rfl⟩ := hc
  constructor
  · have : e = (i, e.2) := by
      cases e
      simp_all
    rw [← this]
    exact he
  · exact h2

/-- `wChildIds` ignores everything but the edges. -/
theorem wChildIds_edges (nodes : List NodeData) (edges : List (Nat × Nat))
    (dirIdx : List (String × Nat)) (nodes' : List NodeData)
    (dirIdx' : List (String × Nat)) (i : Nat) :
    wChildIds ⟨nodes, edges, dirIdx⟩ i = wChildIds ⟨nodes', edges, dirIdx'⟩ i := rfl

/-- `wChildIds` after appending one fresh edge targeting the new id. -/
theorem wChildIds_push (st : BuildState) (nd : NodeData) (pid : Nat)
    (dIdx : List (String × Nat)) (i : Nat) :
    wChildIds ⟨st.nodes ++ [nd], st.edges ++ [(pid, st.nodes.length)], dIdx⟩ i
      = wChildIds st i
        ++ (if pid = i ∧ i < st.nodes.length then [st.nodes.length] else []) := by
  unfold wChildIds
  simp only [List.filter_append, List.map_append]
  congr 1
  by_cases h : pid = i ∧ i < st.nodes.length
  · rw [if_pos h]
    simp [List.filter_cons, h.1, h.2]
  · rw [if_neg h]
    rcases Decidable.not_and_iff_or_not.1 h with h1 | h2
    · simp [List.filter_cons, h1]
    · simp [List.filter_cons, h2]

/-- When every edge source is below `n`, node `n` has no children. -/
theorem wChildIds_fresh (st : BuildState) (n : Nat)
    (hsrc : ∀ e ∈ st.edges, e.1 < n) : wChildIds st n = [] := by
  unfold wChildIds
  rw [List.filter_eq_nil_iff.2, List.map_nil]
  intro e he
  have := hsrc e he
  simp only [Bool.and_eq_true, beq_iff_eq, decide_eq_true_eq]
  rintro ⟨rfl, -⟩
  omega

/-- Every id visited by the materializer is a valid node index. -/
theorem matIdsW_lt : ∀ (st : BuildState) (i : Nat), ∀ j ∈ matIdsW st i, j < st.nodes.length := by
  intro st i
  by_cases hlt : i < st.nodes.length
  · cases hnd : st.nodes[i]? with
    | none =>
      rw [matIdsW_none st i hlt hnd]
      simp
    | some nd =>
      by_cases hd : nd.ntype = "directory"
      · rw [matIdsW_dir st i nd hnd hd]
        intro j hj
        rcases List.mem_cons.1 hj with rfl | hj'
        · exact hlt
        · simp only [List.mem_flatten, List.mem_map] at hj'
          obtain ⟨L, ⟨c, hc, rfl⟩, hjL⟩ := hj'
          have hgt := wChildIds_gt st i c hc
          exact matIdsW_lt st c j hjL
      · rw [matIdsW_file st i nd hnd hd]
        intro j hj
        simp only [List.mem_singleton] at hj
        subst hj
        exact hlt
  · rw [matIdsW_of_ge st i (by omega)]
    simp
termination_by st i => st.nodes.length - i
decreasing_by exact Nat.sub_lt_sub_left hlt hgt

/-! ## Coercion helpers for multisets of visited ids -/

theorem mset_flatten {α : Type} :
    ∀ (L : List (List α)), Multiset.ofList L.flatten
      = (L.map (fun l => Multiset.ofList l)).sum
  | [] => rfl
  | l :: L => by
    simp only [List.flatten_cons, List.map_cons, List.sum_cons]
    rw [← Multiset.coe_add, ← mset_flatten L]

theorem mset_replicate_sum {α : Type} (a : α) :
    ∀ (l : List Nat), (l.map (fun n => Multiset.replicate n a)).sum
      = Multiset.replicate l.sum a
  | [] => rfl
  | n :: l => by
    simp only [List.map_cons, List.sum_cons, List.sum_cons]
    rw [mset_replicate_sum a l, Multiset.replicate_add]

theorem mset_sum_map_add {α β : Type} (f g : β → Multiset α) :
    ∀ (l : List β), (l.map (fun b => f b + g b)).sum = (l.map f).sum + (l.map g).sum
  | [] => by simp
  | b :: l => by
    simp only [List.map_cons, List.sum_cons]
    rw [mset_sum_map_add f g l]
    abel

theorem ofList_append {α : Type} (l₁ l₂ : List α) :
    Multiset.ofList (l₁ ++ l₂) = Multiset.ofList l₁ + Multiset.ofList l₂ :=
  Multiset.coe_add l₁ l₂

theorem ofList_cons {α : Type} (a : α) (l : List α) :
    Multiset.ofList (a :: l) = a ::ₘ Multiset.ofList l := rfl

theorem count_flatten {α : Type} [BEq α] :
    ∀ (L : List (List α)) (a : α),
      (L.flatten).count a = (L.map (fun l => l.count a)).sum
  | [], _ => rfl
  | l :: L, a => by
    simp only [List.flatten_cons, List.count_append, List.map_cons, List.sum_cons]
    rw [count_flatten L a]

/-- The shared multiset computation for flattened children lists whose
per-child materializations gained `count` copies of the fresh id `N`. -/
theorem flatten_push_alg (A : List Nat) (f f' : Nat → List Nat) (N pid : Nat)
    (hpt : ∀ c ∈ A, Multiset.ofList (f' c)
      = Multiset.ofList (f c) + Multiset.replicate ((f c).count pid) N) :
    Multiset.ofList ((A.map f').flatten)
      = Multiset.ofList ((A.map f).flatten)
        + Multiset.replicate (((A.map f).flatten).count pid) N := by
  rw [mset_flatten, mset_flatten, List.map_map, List.map_map]
  have hcongr : A.map (fun c => Multiset.ofList (f' c))
      = A.map (fun c => Multiset.ofList (f c)
          + Multiset.replicate ((f c).count pid) N) :=
    List.map_congr_left hpt
  rw [show (Multiset.ofList ∘ f') = fun c => Multiset.ofList (f' c) from rfl,
    show (Multiset.ofList ∘ f) = fun c => Multiset.ofList (f c) from rfl]
  rw [hcongr, mset_sum_map_add]
  congr 1
  rw [count_flatten, List.map_map]
  rw [show ((fun l => List.count pid l) ∘ f) = fun c => (f c).count pid from rfl]
  rw [show A.map (fun c => Multiset.replicate ((f c).count pid) N)
      = (A.map (fun c => (f c).count pid)).map (fun n => Multiset.replicate n N) by
    rw [List.map_map]; rfl]
  exact mset_replicate_sum N _

/-- Materializing the freshly pushed node visits only that node. -/
theorem matIdsW_push_new (st : BuildState) (nd : NodeData) (pid : Nat)
    (dIdx : List (String × Nat))
    (hsrc : ∀ e ∈ st.edges, e.1 < st.nodes.length) (hpidlt : pid < st.nodes.length) :
    matIdsW ⟨st.nodes ++ [nd], st.edges ++ [(pid, st.nodes.length)], dIdx⟩
      st.nodes.length = [st.nodes.length] := by
  have hnode : (⟨st.nodes ++ [nd], st.edges ++ [(pid, st.nodes.length)], dIdx⟩ :
      BuildState).nodes[st.nodes.length]? = some nd := by
    simp
  have hwc : wChildIds ⟨st.nodes ++ [nd], st.edges ++ [(pid, st.nodes.length)], dIdx⟩
      st.nodes.length = [] := by
    rw [wChildIds_push, if_neg (by omega), wChildIds_fresh st _ hsrc]
    rfl
  by_cases hd : nd.ntype = "directory"
  · rw [matIdsW_dir _ _ nd hnode hd, hwc]
    simp
  · rw [matIdsW_file _ _ nd hnode hd]

/-- Pushing a node whose single append targets the node itself changes no
other materialization. -/
theorem matIdsW_push_self (st : BuildState) (nd : NodeData) (dIdx : List (String × Nat))
    (hsrc : ∀ e ∈ st.edges, e.1 < st.nodes.length)
    (htarg : ∀ e ∈ st.edges, e.2 < st.nodes.length) :
    ∀ i, i < st.nodes.length →
      matIdsW ⟨st.nodes ++ [nd],
        st.edges ++ [(st.nodes.length, st.nodes.length)], dIdx⟩ i = matIdsW st i := by
  intro i hlt
  have hnodes_i : (⟨st.nodes ++ [nd],
      st.edges ++ [(st.nodes.length, st.nodes.length)], dIdx⟩ :
      BuildState).nodes[i]? = st.nodes[i]? := by
    simp [List.getElem?_append, hlt]
  have hwc : wChildIds ⟨st.nodes ++ [nd],
      st.edges ++ [(st.nodes.length, st.nodes.length)], dIdx⟩ i = wChildIds st i := by
    rw [wChildIds_push, if_neg (by omega)]
    simp
  cases hnd : st.nodes[i]? with
  | none =>
    rw [matIdsW_none _ i (by simp; omega) (by rw [hnodes_i, hnd]),
      matIdsW_none st i hlt hnd]
  | some ndi =>
    by_cases hdd : ndi.ntype = "directory"
    · rw [matIdsW_dir _ i ndi (by rw [hnodes_i, hnd]) hdd,
        matIdsW_dir st i ndi hnd hdd, hwc]
      congr 2
      apply List.map_congr_left
      intro c hc
      obtain ⟨hce, hci⟩ := wChildIds_mem st i c hc
      exact matIdsW_push_self st nd dIdx hsrc htarg c (htarg _ hce)
    · rw [matIdsW_file _ i ndi (by rw [hnodes_i, hnd]) hdd,
        matIdsW_file st i ndi hnd hdd]
termination_by i => st.nodes.length - i
decreasing_by omega

/-- The extension lemma: pushing a node appended under an existing directory
`pid` adds one copy of the fresh id below every occurrence of `pid`. -/
theorem matIdsW_push (st : BuildState) (nd : NodeData) (pid : Nat)
    (dIdx : List (String × Nat))
    (hsrc : ∀ e ∈ st.edges, e.1 < st.nodes.length)
    (htarg : ∀ e ∈ st.edges, e.2 < st.nodes.length)
    (hpidlt : pid < st.nodes.length)
    (hpiddir : isDirAt st pid = true) :
    ∀ i, i < st.nodes.length →
      Multiset.ofList (matIdsW ⟨st.nodes ++ [nd],
          st.edges ++ [(pid, st.nodes.length)], dIdx⟩ i)
        = Multiset.ofList (matIdsW st i)
          + Multiset.replicate ((matIdsW st i).count pid) st.nodes.length := by
  intro i hlt
  have hnodes_i : (⟨st.nodes ++ [nd], st.edges ++ [(pid, st.nodes.length)], dIdx⟩ :
      BuildState).nodes[i]? = st.nodes[i]? := by
    simp [List.getElem?_append, hlt]
  cases hnd : st.nodes[i]? with
  | none =>
    rw [matIdsW_none _ i (by simp; omega) (by rw [hnodes_i, hnd]),
      matIdsW_none st i hlt hnd]
    simp
  | some ndi =>
    by_cases hdd : ndi.ntype = "directory"
    · rw [matIdsW_dir _ i ndi (by rw [hnodes_i, hnd]) hdd,
        matIdsW_dir st i ndi hnd hdd]
      rw [wChildIds_push st nd pid dIdx i]
      have hptw : ∀ c ∈ wChildIds st i,
          Multiset.ofList (matIdsW ⟨st.nodes ++ [nd],
              st.edges ++ [(pid, st.nodes.length)], dIdx⟩ c)
            = Multiset.ofList (matIdsW st c)
              + Multiset.replicate ((matIdsW st c).count pid) st.nodes.length := by
        intro c hc
        obtain ⟨hce, hci⟩ := wChildIds_mem st i c hc
        exact matIdsW_push st nd pid dIdx hsrc htarg hpidlt hpiddir c (htarg _ hce)
      by_cases hpi : pid = i
      · subst hpi
        rw [if_pos ⟨rfl, hlt⟩]
        rw [List.map_append, List.flatten_append]
        rw [show (List.map (matIdsW ⟨st.nodes ++ [nd],
            st.edges ++ [(pid, st.nodes.length)], dIdx⟩) [st.nodes.length]).flatten
            = [st.nodes.length] by
          simp [matIdsW_push_new st nd pid dIdx hsrc hpidlt]]
        rw [ofList_cons, ofList_cons, ofList_append]
        rw [flatten_push_alg (wChildIds st pid) (matIdsW st)
          (matIdsW ⟨st.nodes ++ [nd], st.edges ++ [(pid, st.nodes.length)], dIdx⟩)
          st.nodes.length pid hptw]
        rw [List.count_cons_self]
        rw [Multiset.replicate_add]
        have h1 : (Multiset.ofList [st.nodes.length])
            = Multiset.replicate 1 st.nodes.length := by
          simp
        rw [h1]
        simp only [← Multiset.singleton_add]
        abel
      · rw [if_neg (by intro hcon; exact hpi hcon.1)]
        rw [List.append_nil]
        rw [ofList_cons, ofList_cons]
        rw [flatten_push_alg (wChildIds st i) (matIdsW st)
          (matIdsW ⟨st.nodes ++ [nd], st.edges ++ [(pid, st.nodes.length)], dIdx⟩)
          st.nodes.length pid hptw]
        rw [List.count_cons_of_ne (by omega)]
        simp only [← Multiset.singleton_add]
        abel
    · rw [matIdsW_file _ i ndi (by rw [hnodes_i, hnd]) hdd,
        matIdsW_file st i ndi hnd hdd]
      have hne : pid ≠ i := by
        intro he
        subst he
        unfold isDirAt at hpiddir
        rw [hnd] at hpiddir
        simp only [beq_iff_eq] at hpiddir
        exact hdd hpiddir
      rw [List.count_singleton']
      rw [if_neg (by omega)]
      simp
termination_by i => st.nodes.length - i
decreasing_by omega

/-! ## Lookup table and node-kind stability lemmas -/

theorem lookupDir_mem (st : BuildState) (p : String) (j : Nat)
    (h : lookupDir st p = some j) : (p, j) ∈ st.dirIdx := by
  unfold lookupDir at h
  cases hf : st.dirIdx.find? (fun b => b.1 == p) with
  | none => rw [hf] at h; cases h
  | some b =>
    rw [hf] at h
    simp at h
    have hmem := List.mem_of_find?_eq_some hf
    have hkey := List.find?_some hf
    simp only [beq_iff_eq] at hkey
    have : b = (p, j) := by
      cases b
      simp_all
    rw [← this]
    exact hmem

theorem lookupDir_isSome_of_mem (st : BuildState) (p : String) (j : Nat)
    (h : (p, j) ∈ st.dirIdx) : ∃ k, lookupDir st p = some k := by
  unfold lookupDir
  cases hf : st.dirIdx.find? (fun b => b.1 == p) with
  | none =>
    have := List.find?_eq_none.1 hf (p, j) h
    simp at this
  | some b => exact ⟨b.2, rfl⟩

theorem isDirAt_append (st : BuildState) (nd : NodeData) (edges' : List (Nat × Nat))
    (dIdx' : List (String × Nat)) (i : Nat) (h : i < st.nodes.length) :
    isDirAt ⟨st.nodes ++ [nd], edges', dIdx'⟩ i = isDirAt st i := by
  unfold isDirAt
  simp [List.getElem?_append, h]

theorem isDirAt_new (st : BuildState) (nd : NodeData) (edges' : List (Nat × Nat))
    (dIdx' : List (String × Nat)) :
    isDirAt ⟨st.nodes ++ [nd], edges', dIdx'⟩ st.nodes.length
      = (nd.ntype == "directory") := by
  unfold isDirAt
  simp

/-! ## The fueled materializer equals the fuel-free one from the root -/

theorem matN_eq_matW (st : BuildState)
    (htpos : ∀ e ∈ st.edges, 1 ≤ e.2)
    (htlt : ∀ e ∈ st.edges, e.2 < st.nodes.length)
    (hle : ∀ e ∈ st.edges, e.1 ≤ e.2)
    (hnodup : (st.edges.map (fun e => e.2)).Nodup) :
    ∀ (fuel i : Nat), st.nodes.length ≤ fuel + i →
      (i = 0 ∨ ∃ e ∈ st.edges, e.2 = i ∧ e.1 < i) →
      matN fuel st i = matW st i := by
  intro fuel
  induction fuel with
  | zero =>
    intro i hfi _
    rw [matW_of_ge st i (by omega)]
    rfl
  | succ fuel ih =>
    intro i hfi hinc
    by_cases hlt : i < st.nodes.length
    · cases hnd : st.nodes[i]? with
      | none =>
        rw [matN_succ_none fuel st i hnd, matW_none st i hlt hnd]
      | some nd =>
        by_cases hdd : nd.ntype = "directory"
        · rw [matN_succ_dir fuel st i nd hnd hdd, matW_dir st i nd hnd hdd]
          have hnoself : (i, i) ∉ st.edges := by
            intro hmem
            rcases hinc with rfl | ⟨e, he, he2, he1⟩
            · have := htpos _ hmem
              omega
            · have he' : e = (i, i) := by
                have hinj := List.inj_on_of_nodup_map hnodup
                exact hinj he hmem (by rw [he2])
              rw [he'] at he1
              omega
          have hchild : childIds st.edges i = wChildIds st i := by
            unfold childIds wChildIds
            congr 1
            apply List.filter_congr
            intro e he
            by_cases hei : e.1 = i
            · have hib : i < e.2 := by
                have h1 := hle e he
                have h2 : e.2 ≠ i := by
                  intro h2
                  apply hnoself
                  have : e = (i, i) := by
                    cases e
                    simp_all
                  rw [← this]
                  exact he
                omega
              simp [hei, hib]
            · simp [hei]
          rw [hchild]
          congr 1
          apply List.map_congr_left
          intro c hc
          obtain ⟨hce, hci⟩ := wChildIds_mem st i c hc
          exact ih c (by omega) (Or.inr ⟨(i, c), hce, rfl, hci⟩)
        · rw [matN_succ_file fuel st i nd hnd hdd, matW_file st i nd hnd hdd]
    · rw [matW_of_ge st i (by omega),
        matN_succ_none fuel st i (List.getElem?_eq_none (by omega))]

/-! ## The creation transition preserves the invariant -/

theorem good_push (st : BuildState) (nd : NodeData) (pid : Nat)
    (dIdx : List (String × Nat)) (hG : Good st)
    (hpid : pid ≤ st.nodes.length)
    (hpdir : pid < st.nodes.length → isDirAt st pid = true)
    (hpself : pid = st.nodes.length → nd.ntype = "directory")
    (hdix : ∀ b ∈ dIdx, b.2 < st.nodes.length + 1
      ∧ (b.2 < st.nodes.length → isDirAt st b.2 = true)
      ∧ (b.2 = st.nodes.length → nd.ntype = "directory"))
    (hroot : ("/", (0 : Nat)) ∈ dIdx) :
    Good ⟨st.nodes ++ [nd], st.edges ++ [(pid, st.nodes.length)], dIdx⟩ := by
  have h0N : 0 < st.nodes.length := lt_of_getElem?_some hG.root0
  refine ⟨?_, ?_, ?_, ?_, ?_, ?_, ?_, ?_, ?_, ?_, ?_⟩
  · show (st.nodes ++ [nd])[0]? = some rootData
    rw [List.getElem?_append, if_pos h0N]
    exact hG.root0
  · intro e he
    simp only [List.length_append, List.length_singleton]
    rcases List.mem_append.1 he with hold | hnew
    · have := hG.src_lt e hold
      omega
    · simp only [List.mem_singleton] at hnew
      subst hnew
      simp only
      omega
  · intro e he
    simp only [List.length_append, List.length_singleton]
    rcases List.mem_append.1 he with hold | hnew
    · have := hG.targ_lt e hold
      omega
    · simp only [List.mem_singleton] at hnew
      subst hnew
      simp only
      omega
  · intro e he
    rcases List.mem_append.1 he with hold | hnew
    · exact hG.targ_pos e hold
    · simp only [List.mem_singleton] at hnew
      subst hnew
      simp only
      omega
  · intro e he
    rcases List.mem_append.1 he with hold | hnew
    · exact hG.edge_le e hold
    · simp only [List.mem_singleton] at hnew
      subst hnew
      simp only
      exact hpid
  · intro e he
    rcases List.mem_append.1 he with hold | hnew
    · rw [isDirAt_append st nd _ _ e.1 (hG.src_lt e hold)]
      exact hG.src_dir e hold
    · simp only [List.mem_singleton] at hnew
      subst hnew
      simp only
      by_cases hp : pid < st.nodes.length
      · rw [isDirAt_append st nd _ _ pid hp]
        exact hpdir hp
      · have hpe : pid = st.nodes.length := by omega
        rw [hpe, isDirAt_new]
        simp [hpself hpe]
  · rw [List.map_append]
    simp only [List.map_cons, List.map_nil]
    rw [List.nodup_append]
    refine ⟨hG.targ_nodup, by simp, ?_⟩
    intro a ha hb
    simp only [List.mem_singleton] at hb
    subst hb
    simp only [List.mem_map] at ha
    obtain ⟨e, he, he2⟩ := ha
    have := hG.targ_lt e he
    omega
  · intro b hb
    simp only [List.length_append, List.length_singleton]
    exact (hdix b hb).1
  · intro b hb
    obtain ⟨h1, h2, h3⟩ := hdix b hb
    by_cases hblt : b.2 < st.nodes.length
    · rw [isDirAt_append st nd _ _ b.2 hblt]
      exact h2 hblt
    · have hbe : b.2 = st.nodes.length := by omega
      rw [hbe, isDirAt_new]
      simp [h3 hbe]
  · exact hroot
  · simp only [List.length_append, List.length_singleton]
    by_cases hp : pid < st.nodes.length
    · have hext := matIdsW_push st nd pid dIdx hG.src_lt hG.targ_lt hp (hpdir hp) 0 h0N
      rw [hext]
      have hcnt : (matIdsW st 0).count pid ≤ 1 := by
        have hle1 := Multiset.count_le_of_le pid hG.mset_le
        have hnd1 : (Multiset.range st.nodes.length).Nodup := Multiset.nodup_range _
        have := (Multiset.nodup_iff_count_le_one.1 hnd1) pid
        calc (matIdsW st 0).count pid
            = Multiset.count pid (Multiset.ofList (matIdsW st 0)) := by
              rw [Multiset.coe_count]
          _ ≤ Multiset.count pid (Multiset.range st.nodes.length) := hle1
          _ ≤ 1 := this
      have hrange : Multiset.range (st.nodes.length + 1)
          = Multiset.range st.nodes.length
            + Multiset.replicate 1 st.nodes.length := by
        rw [Multiset.range_succ, Multiset.replicate_one]
        rw [← Multiset.singleton_add]
        exact add_comm _ _
      rw [hrange]
      exact add_le_add hG.mset_le
        ((Multiset.replicate_le_replicate st.nodes.length).2 hcnt)
    · have hpe : pid = st.nodes.length := by omega
      subst hpe
      rw [matIdsW_push_self st nd dIdx hG.src_lt hG.targ_lt 0 h0N]
      calc Multiset.ofList (matIdsW st 0)
          ≤ Multiset.range st.nodes.length := hG.mset_le
        _ ≤ Multiset.range (st.nodes.length + 1) := by
            rw [Multiset.range_succ]
            exact Multiset.le_cons_self _ _

/-! ## Every builder step preserves the invariant -/

theorem synthStep_good (parts : List String) (st : BuildState) (i : Nat)
    (part cur : String) (hG : Good st) : Good (synthStep parts st i part cur) := by
  unfold synthStep
  split
  · cases hl : lookupDir st (popOf parts i) with
    | none => exact hG
    | some pid =>
      have hmem := lookupDir_mem st _ pid hl
      have hlt := hG.dir_lt _ hmem
      have hdir := hG.dir_isdir _ hmem
      refine good_push st ⟨part, "directory", some cur⟩ pid _ hG (by omega)
        (fun _ => hdir) (fun _ => rfl) ?_ (List.mem_cons.2 (Or.inr hG.root_mem))
      intro b hb
      rcases List.mem_cons.1 hb with rfl | hb'
      · exact ⟨by simp, fun h => absurd h (by omega), fun _ => rfl⟩
      · have := hG.dir_lt b hb'
        exact ⟨by omega, fun _ => hG.dir_isdir b hb', fun _ => rfl⟩
  · exact hG

theorem synthLoop_good (parts : List String) :
    ∀ (rest : List String) (st : BuildState) (i : Nat) (cur : String),
      Good st → Good (synthLoop parts st i cur rest)
  | [], st, _, _, hG => hG
  | part :: rest, st, i, cur, hG => by
    rw [synthLoop]
    exact synthLoop_good parts rest _ (i + 1) _ (synthStep_good parts st i part _ hG)

theorem entryStep_good (st1 : BuildState) (pp name ty path : String) (hG : Good st1)
    (hpp : ∃ j, (pp, j) ∈ st1.dirIdx) : Good (entryStep st1 pp name ty path) := by
  obtain ⟨j, hj⟩ := hpp
  unfold entryStep
  dsimp only
  by_cases hty : ty = "directory"
  · rw [if_pos hty]
    have hj2 : (pp, j) ∈ ((path, st1.nodes.length) :: st1.dirIdx) :=
      List.mem_cons.2 (Or.inr hj)
    cases hl : lookupDir ⟨st1.nodes ++ [⟨name, ty, some path⟩], st1.edges,
        (path, st1.nodes.length) :: st1.dirIdx⟩ pp with
    | none =>
      exfalso
      obtain ⟨k, hk⟩ := lookupDir_isSome_of_mem
        ⟨st1.nodes ++ [⟨name, ty, some path⟩], st1.edges,
          (path, st1.nodes.length) :: st1.dirIdx⟩ pp j hj2
      rw [hl] at hk
      cases hk
    | some pid =>
      have hmem2 := lookupDir_mem _ pp pid hl
      have hdix : ∀ b ∈ ((path, st1.nodes.length) :: st1.dirIdx),
          b.2 < st1.nodes.length + 1
          ∧ (b.2 < st1.nodes.length → isDirAt st1 b.2 = true)
          ∧ (b.2 = st1.nodes.length →
              (⟨name, ty, some path⟩ : NodeData).ntype = "directory") := by
        intro b hb
        rcases List.mem_cons.1 hb with rfl | hb'
        · exact ⟨by simp, fun h => absurd h (by omega), fun _ => hty⟩
        · have := hG.dir_lt b hb'
          exact ⟨by omega, fun _ => hG.dir_isdir b hb', fun _ => hty⟩
      rcases List.mem_cons.1 hmem2 with heq | hmem'
      · have hpidN : pid = st1.nodes.length := congrArg Prod.snd heq
        exact good_push st1 ⟨name, ty, some path⟩ pid _ hG (by omega)
          (fun h => absurd hpidN (by omega)) (fun _ => hty) hdix
          (List.mem_cons.2 (Or.inr hG.root_mem))
      · have hlt := hG.dir_lt _ hmem'
        exact good_push st1 ⟨name, ty, some path⟩ pid _ hG (by omega)
          (fun _ => hG.dir_isdir _ hmem') (fun h => absurd h (by omega)) hdix
          (List.mem_cons.2 (Or.inr hG.root_mem))
  · rw [if_neg hty]
    cases hl : lookupDir ⟨st1.nodes ++ [⟨name, ty, some path⟩], st1.edges,
        st1.dirIdx⟩ pp with
    | none =>
      exfalso
      obtain ⟨k, hk⟩ := lookupDir_isSome_of_mem
        ⟨st1.nodes ++ [⟨name, ty, some path⟩], st1.edges, st1.dirIdx⟩ pp j hj
      rw [hl] at hk
      cases hk
    | some pid =>
      have hmem2 := lookupDir_mem _ pp pid hl
      have hlt := hG.dir_lt _ hmem2
      refine good_push st1 ⟨name, ty, some path⟩ pid _ hG (by omega)
        (fun _ => hG.dir_isdir _ hmem2) (fun h => absurd h (by omega)) ?_ hG.root_mem
      intro b hb
      have := hG.dir_lt b hb
      exact ⟨by omega, fun _ => hG.dir_isdir b hb, fun h => absurd h (by omega)⟩

theorem processItem_good (pats : List String) (d : Int) (st : BuildState) (it : Item)
    (hG : Good st) : Good (processItem pats d st it) := by
  rcases it with ⟨p?, t?⟩
  cases p? with
  | none => exact hG
  | some path =>
    cases t? with
    | none => exact hG
    | some ty =>
      simp only [processItem]
      split
      · exact hG
      · split
        · exact hG
        · generalize (if joinSlash (splitSlash path).dropLast = "" then "/"
            else joinSlash (splitSlash path).dropLast) = pp0
          have hst1 : Good (if lookupDir st pp0 = none
              then synthLoop (splitSlash path) st 0 "" (splitSlash path).dropLast
              else st) := by
            split
            · exact synthLoop_good (splitSlash path) (splitSlash path).dropLast st 0 "" hG
            · exact hG
          apply entryStep_good _ _ _ _ _ hst1
          cases hl : lookupDir (if lookupDir st pp0 = none
              then synthLoop (splitSlash path) st 0 "" (splitSlash path).dropLast
              else st) pp0 with
          | none =>
            rw [if_pos rfl]
            exact ⟨0, hst1.root_mem⟩
          | some j =>
            rw [show (if (some j = none) then "/" else pp0) = pp0 from rfl]
            exact ⟨j, lookupDir_mem _ pp0 j hl⟩

theorem initState_good : Good initState := by
  refine ⟨rfl, ?_, ?_, ?_, ?_, ?_, ?_, ?_, ?_, ?_, ?_⟩
  · intro e he; simp [initState] at he
  · intro e he; simp [initState] at he
  · intro e he; simp [initState] at he
  · intro e he; simp [initState] at he
  · intro e he; simp [initState] at he
  · simp [initState]
  · intro b hb
    simp only [initState, List.mem_singleton] at hb
    subst hb
    simp [initState]
  · intro b hb
    simp only [initState, List.mem_singleton] at hb
    subst hb
    rfl
  · simp [initState]
  · rw [matIdsW_dir initState 0 rootData rfl rfl]
    rw [show wChildIds initState 0 = [] from rfl]
    simp only [List.map_nil, List.flatten_nil]
    show Multiset.ofList [0] ≤ Multiset.range 1
    simp [Multiset.range_succ]

theorem buildState_good (e : List Item) (pats : List String) (d : Int) :
    Good (buildState e pats d) := by
  unfold buildState
  have hfold : ∀ (l : List Item) (st : BuildState), Good st →
      Good (l.foldl (processItem pats d) st) := by
    intro l
    induction l with
    | nil => exact fun st h => h
    | cons it l ih => exact fun st h => ih _ (processItem_good pats d st it h)
  exact hfold _ _ initState_good

/-! ## Order facts about the sort comparator -/

theorem keyLt_irrefl : ∀ l : List Char, keyLt l l = false
  | [] => rfl
  | a :: as => by
    rw [keyLt]
    rw [if_neg (by omega), if_neg (by omega)]
    exact keyLt_irrefl as

theorem keyLt_nil_right : ∀ l : List Char, keyLt l [] = false
  | [] => rfl
  | _ :: _ => rfl

theorem keyLt_asymm : ∀ a b : List Char, keyLt a b = true → keyLt b a = false
  | [], [], h => by cases h
  | [], _ :: _, _ => rfl
  | _ :: _, [], h => by rw [keyLt_nil_right] at h; cases h
  | x :: a, y :: b, h => by
    rw [keyLt] at h ⊢
    by_cases h1 : x.toNat < y.toNat
    · rw [if_neg (by omega), if_pos (by omega)]
    · rw [if_neg h1] at h
      by_cases h2 : y.toNat < x.toNat
      · rw [if_pos h2] at h
        cases h
      · rw [if_neg h2] at h
        rw [if_neg (by omega), if_neg (by omega)]
        exact keyLt_asymm a b h

theorem keyLt_trans : ∀ a b c : List Char,
    keyLt a b = true → keyLt b c = true → keyLt a c = true
  | [], _, [], _, h2 => by rw [keyLt_nil_right] at h2; cases h2
  | [], _ :: _, _ :: _, _, _ => rfl
  | [], [], _ :: _, _, _ => rfl
  | _ :: _, [], _, h1, _ => by rw [keyLt_nil_right] at h1; cases h1
  | _ :: _, _ :: _, [], _, h2 => by rw [keyLt_nil_right] at h2; cases h2
  | x :: a, y :: b, z :: c, h1, h2 => by
    rw [keyLt] at h1 h2 ⊢
    by_cases hxy : x.toNat < y.toNat
    · by_cases hyz : y.toNat < z.toNat
      · rw [if_pos (by omega)]
      · rw [if_neg hyz] at h2
        by_cases hzy : z.toNat < y.toNat
        · rw [if_pos hzy] at h2
          cases h2
        · rw [if_pos (by omega)]
    · rw [if_neg hxy] at h1
      by_cases hyx : y.toNat < x.toNat
      · rw [if_pos hyx] at h1
        cases h1
      · rw [if_neg hyx] at h1
        by_cases hyz : y.toNat < z.toNat
        · rw [if_pos (by omega)]
        · rw [if_neg hyz] at h2
          by_cases hzy : z.toNat < y.toNat
          · rw [if_pos hzy] at h2
            cases h2
          · rw [if_neg hzy] at h2
            rw [if_neg (by omega), if_neg (by omega)]
            exact keyLt_trans a b c h1 h2

/-- A proper extension is strictly larger in the key order. -/
theorem keyLt_prefix : ∀ (l m : List Char), m ≠ [] → keyLt l (l ++ m) = true
  | [], m, hm => by
    cases m with
    | nil => exact absurd rfl hm
    | cons c r => rfl
  | a :: l, m, hm => by
    rw [List.cons_append, keyLt]
    rw [if_neg (by omega), if_neg (by omega)]
    exact keyLt_prefix l m hm

/-! ## The insertion sort is a sorted permutation -/

theorem mem_insertItem (x z : Item) : ∀ l : List Item,
    z ∈ insertItem x l ↔ z = x ∨ z ∈ l
  | [] => by simp [insertItem]
  | y :: ys => by
    rw [insertItem]
    split
    · simp [or_comm, or_assoc, or_left_comm]
    · rw [List.mem_cons, List.mem_cons, mem_insertItem x z ys]
      tauto

theorem insertItem_perm (x : Item) : ∀ l : List Item, (insertItem x l).Perm (x :: l)
  | [] => List.Perm.refl _
  | y :: ys => by
    rw [insertItem]
    split
    · exact List.Perm.refl _
    · exact ((insertItem_perm x ys).cons y).trans (List.Perm.swap x y ys)

theorem sortItems_perm (l : List Item) : (sortItems l).Perm l := by
  unfold sortItems
  suffices h : ∀ (l acc : List Item),
      (l.foldl (fun acc x => insertItem x acc) acc).Perm (acc ++ l) by
    simpa using h l []
  intro l
  induction l with
  | nil => simp
  | cons x l ih =>
    intro acc
    simp only [List.foldl_cons]
    refine (ih (insertItem x acc)).trans ?_
    have h1 : (insertItem x acc ++ l).Perm ((x :: acc) ++ l) :=
      (insertItem_perm x acc).append_right l
    refine h1.trans ?_
    have h2 : List.Perm (acc ++ x :: l) (x :: (acc ++ l)) := List.perm_middle
    simpa using h2.symm

/-- The pairwise order the sorted pass guarantees: no later item has a
strictly smaller key. -/
def SortedKeys (l : List Item) : Prop := l.Pairwise (fun a b => itemLt b a = false)

theorem insertItem_sorted (x : Item) : ∀ l : List Item,
    SortedKeys l → SortedKeys (insertItem x l)
  | [], _ => List.pairwise_singleton _ x
  | y :: ys, hs => by
    rw [insertItem]
    obtain ⟨hy, hys⟩ := List.pairwise_cons.1 hs
    split
    · rename_i hlt
      refine List.pairwise_cons.2 ⟨?_, hs⟩
      intro z hz
      rcases List.mem_cons.1 hz with rfl | hz'
      · exact keyLt_asymm _ _ hlt
      · unfold itemLt at hlt ⊢
        by_cases hzx : keyLt (pathKey z).toList (pathKey x).toList = true
        · have hzy := keyLt_trans _ _ _ hzx hlt
          have := hy z hz'
          unfold itemLt at this
          rw [this] at hzy
          cases hzy
        · simpa using hzx
    · rename_i hnlt
      refine List.pairwise_cons.2 ⟨?_, insertItem_sorted x ys hys⟩
      intro z hz
      rcases (mem_insertItem x z ys).1 hz with rfl | hz'
      · simpa using hnlt
      · exact hy z hz'

theorem sortItems_sorted (l : List Item) : SortedKeys (sortItems l) := by
  unfold sortItems
  suffices h : ∀ (l acc : List Item), SortedKeys acc →
      SortedKeys (l.foldl (fun acc x => insertItem x acc) acc) by
    exact h l [] List.Pairwise.nil
  intro l
  induction l with
  | nil => exact fun acc h => h
  | cons x l ih =>
    intro acc hacc
    exact ih (insertItem x acc) (insertItem_sorted x acc hacc)

/-! ## Joined prefixes are strictly below the full path -/

theorem joinSlash_take_drop : ∀ (l : List String) (k : Nat), 0 < k → k < l.length →
    joinSlash l = joinSlash (l.take k) ++ "/" ++ joinSlash (l.drop k)
  | [], k, _, hk => by simp at hk
  | x :: xs, 1, _, hk => by
    cases xs with
    | nil => simp at hk
    | cons y ys =>
      show x ++ "/" ++ joinSlash (y :: ys) = joinSlash [x] ++ "/" ++ joinSlash (y :: ys)
      rfl
  | x :: xs, k + 2, _, hk => by
    have hxs : k + 1 < xs.length := by
      simp only [List.length_cons] at hk
      omega
    have htake : (x :: xs).take (k + 2) = x :: xs.take (k + 1) := rfl
    have hdrop : (x :: xs).drop (k + 2) = xs.drop (k + 1) := rfl
    have hxsne : xs ≠ [] := by
      intro h
      rw [h] at hxs
      simp at hxs
    have hxstake : xs.take (k + 1) ≠ [] :=
      List.ne_nil_of_length_pos (by rw [List.length_take]; omega)
    have hjx : joinSlash (x :: xs) = x ++ "/" ++ joinSlash xs := by
      cases xs with
      | nil => exact absurd rfl hxsne
      | cons y ys => rfl
    have hjt : joinSlash (x :: xs.take (k + 1)) = x ++ "/" ++ joinSlash (xs.take (k + 1)) := by
      cases htk : xs.take (k + 1) with
      | nil => exact absurd htk hxstake
      | cons y ys => rfl
    rw [hjx, htake, hdrop, hjt,
      joinSlash_take_drop xs (k + 1) (by omega) hxs]
    simp [String.append_assoc]

/-- The joined proper prefix of a path is strictly smaller in key order. -/
theorem keyLt_join_take (path : String) (k : Nat) (h1 : 1 ≤ k)
    (h2 : k ≤ (splitSlash path).length - 1) :
    keyLt (joinSlash ((splitSlash path).take k)).data
      (joinSlash (splitSlash path)).data = true := by
  have hlen : 1 ≤ (splitSlash path).length := by
    have := splitSlash_ne_nil path
    cases h : splitSlash path with
    | nil => exact absurd h this
    | cons a l => simp
  have hk : k < (splitSlash path).length := by omega
  rw [joinSlash_take_drop (splitSlash path) k (by omega) hk]
  rw [String.data_append, String.data_append, List.append_assoc]
  exact keyLt_prefix _ _ (fun hc => List.noConfusion hc)

theorem joinSlashC_splitSlashC : ∀ l : List Char, joinSlashC (splitSlashC l) = l
  | [] => rfl
  | c :: cs => by
    rw [splitSlashC]
    cases hs : splitSlashC cs with
    | nil => exact absurd hs (splitSlashC_ne_nil cs)
    | cons r rs =>
      have ih : joinSlashC (r :: rs) = cs := by
        rw [← hs]
        exact joinSlashC_splitSlashC cs
      show joinSlashC (if c = '/' then [] :: r :: rs else (c :: r) :: rs) = c :: cs
      by_cases hc : c = '/'
      · rw [if_pos hc]
        show [] ++ '/' :: joinSlashC (r :: rs) = c :: cs
        rw [ih, hc]
        rfl
      · rw [if_neg hc]
        cases rs with
        | nil =>
          show c :: r = c :: cs
          have hr : r = cs := ih
          rw [hr]
        | cons r2 rs2 =>
          show (c :: r) ++ '/' :: joinSlashC (r2 :: rs2) = c :: cs
          rw [List.cons_append]
          congr 1

/-- Splitting and re-joining any path is the identity. -/
theorem joinSlash_splitSlash (s : String) : joinSlash (splitSlash s) = s := by
  apply String.ext
  rw [joinSlash_data]
  unfold splitSlash
  rw [List.map_map]
  have hid : (String.data ∘ fun (l : List Char) => (⟨l⟩ : String)) = id := by
    funext q
    rfl
  rw [hid, List.map_id]
  exact joinSlashC_splitSlashC s.toList

/-! ## Directory-path uniqueness invariant

The observable behind the deduplication claim: a state satisfies `DirInv`
when no two distinct log ids hold directory nodes with the same path
(`inj`), and every directory node path is resolvable through the lookup
table (`reg`, which turns the lookup-miss guard of the source into the
absence of a directory node).  `FutureOK` tracks the entries still to be
processed: no directory node created so far carries the path of a future
entry; for a sorted, duplicate-free entry list this holds throughout the
pass because synthesized ancestors sit strictly below the current entry in
key order. -/

/-- No two distinct ids are directory nodes with the same path, and every
directory node path has a lookup-table binding. -/
structure DirInv (st : BuildState) : Prop where
  inj : ∀ (j1 j2 : Nat) (nd1 nd2 : NodeData) (p : String),
    st.nodes[j1]? = some nd1 → st.nodes[j2]? = some nd2 →
    nd1.ntype = "directory" → nd2.ntype = "directory" →
    nd1.path? = some p → nd2.path? = some p → j1 = j2
  reg : ∀ nd ∈ st.nodes, nd.ntype = "directory" → ∀ p, nd.path? = some p →
    ∃ j, (p, j) ∈ st.dirIdx

/-- No directory node of the log carries the path of an entry still to be
processed. -/
def FutureOK (st : BuildState) (l : List Item) : Prop :=
  ∀ nd ∈ st.nodes, nd.ntype = "directory" → ∀ p, nd.path? = some p →
    ∀ y ∈ l, y.path ≠ some p

theorem push_getElem {α : Type} (l : List α) (a : α) (j : Nat) :
    (l ++ [a])[j]? = if j < l.length then l[j]?
      else if j = l.length then some a else none := by
  rw [List.getElem?_append]
  split
  · rfl
  · rename_i hj
    split
    · rename_i hj2
      subst hj2
      simp
    · rw [List.getElem?_eq_none]
      simp only [List.length_singleton]
      omega

theorem dirInv_push (st : BuildState) (nd : NodeData) (edges' : List (Nat × Nat))
    (dIdx' : List (String × Nat)) (hD : DirInv st)
    (hnew : nd.ntype = "directory" → ∀ p, nd.path? = some p →
      ∀ nd' ∈ st.nodes, nd'.ntype = "directory" → nd'.path? ≠ some p)
    (hreg : nd.ntype = "directory" → ∀ p, nd.path? = some p → ∃ j, (p, j) ∈ dIdx')
    (hregold : ∀ q j, (q, j) ∈ st.dirIdx → ∃ k, (q, k) ∈ dIdx') :
    DirInv ⟨st.nodes ++ [nd], edges', dIdx'⟩ := by
  constructor
  · intro j1 j2 nd1 nd2 p h1 h2 hd1 hd2 hp1 hp2
    rw [push_getElem] at h1 h2
    by_cases hj1 : j1 < st.nodes.length
    · rw [if_pos hj1] at h1
      by_cases hj2 : j2 < st.nodes.length
      · rw [if_pos hj2] at h2
        exact hD.inj j1 j2 nd1 nd2 p h1 h2 hd1 hd2 hp1 hp2
      · rw [if_neg hj2] at h2
        by_cases hj2' : j2 = st.nodes.length
        · rw [if_pos hj2'] at h2
          cases h2
          exact absurd hp1 (hnew hd2 p hp2 nd1 (List.getElem?_mem h1) hd1)
        · rw [if_neg hj2'] at h2
          cases h2
    · rw [if_neg hj1] at h1
      by_cases hj1' : j1 = st.nodes.length
      · rw [if_pos hj1'] at h1
        cases h1
        by_cases hj2 : j2 < st.nodes.length
        · rw [if_pos hj2] at h2
          exact absurd hp2 (hnew hd1 p hp1 nd2 (List.getElem?_mem h2) hd2)
        · rw [if_neg hj2] at h2
          by_cases hj2' : j2 = st.nodes.length
          · rw [hj1', hj2']
          · rw [if_neg hj2'] at h2
            cases h2
      · rw [if_neg hj1'] at h1
        cases h1
  · intro nd' hmem hdir p hp
    rcases List.mem_append.1 hmem with hold | hsing
    · obtain ⟨j, hj⟩ := hD.reg nd' hold hdir p hp
      exact hregold p j hj
    · rw [List.mem_singleton] at hsing
      subst hsing
      exact hreg hdir p hp

theorem futureOK_push (st : BuildState) (nd : NodeData) (edges' : List (Nat × Nat))
    (dIdx' : List (String × Nat)) (L : List Item) (hF : FutureOK st L)
    (hnd : nd.ntype = "directory" → ∀ p, nd.path? = some p →
      ∀ y ∈ L, y.path ≠ some p) :
    FutureOK ⟨st.nodes ++ [nd], edges', dIdx'⟩ L := by
  intro nd' hmem hdir p hp y hy
  rcases List.mem_append.1 hmem with hold | hsing
  · exact hF nd' hold hdir p hp y hy
  · rw [List.mem_singleton] at hsing
    subst hsing
    exact hnd hdir p hp y hy

theorem futureOK_tail (st : BuildState) (x : Item) (rest : List Item)
    (h : FutureOK st (x :: rest)) : FutureOK st rest :=
  fun nd hm hd p hp y hy => h nd hm hd p hp y (List.mem_cons.2 (Or.inr hy))

/-- When the lookup table misses a path, no directory node of the log
carries it (the contrapositive of the registration invariant). -/
theorem no_dir_of_lookup_none (st : BuildState) (hD : DirInv st) (p : String)
    (hl : lookupDir st p = none) :
    ∀ nd' ∈ st.nodes, nd'.ntype = "directory" → nd'.path? ≠ some p := by
  intro nd' hmem hdir hp
  obtain ⟨j, hj⟩ := hD.reg nd' hmem hdir p hp
  obtain ⟨k, hk⟩ := lookupDir_isSome_of_mem st p j hj
  rw [hl] at hk
  cases hk

theorem synthStep_dirfut (parts : List String) (st : BuildState) (i : Nat)
    (part cur : String) (L : List Item) (hD : DirInv st) (hF : FutureOK st L)
    (hfut : ∀ y ∈ L, y.path ≠ some cur) :
    DirInv (synthStep parts st i part cur)
      ∧ FutureOK (synthStep parts st i part cur) L := by
  unfold synthStep
  split
  · rename_i hcond
    cases hl : lookupDir st (popOf parts i) with
    | none => exact ⟨hD, hF⟩
    | some pid =>
      constructor
      · refine dirInv_push st ⟨part, "directory", some cur⟩ _ _ hD ?_ ?_ ?_
        · intro _ p hp
          cases hp
          exact no_dir_of_lookup_none st hD cur hcond.2
        · intro _ p hp
          cases hp
          exact ⟨st.nodes.length, List.mem_cons_self _ _⟩
        · intro q j hj
          exact ⟨j, List.mem_cons.2 (Or.inr hj)⟩
      · refine futureOK_push st _ _ _ L hF ?_
        intro _ p hp
        cases hp
        exact hfut
  · exact ⟨hD, hF⟩

theorem synthLoop_dirfut (L : List Item) (parts : List String)
    (hfut : ∀ k, 1 ≤ k → k ≤ parts.length - 1 →
      ∀ y ∈ L, y.path ≠ some (joinSlash (parts.take k))) :
    ∀ (rest pre : List String) (st : BuildState), parts.dropLast = pre ++ rest →
      DirInv st → FutureOK st L →
      DirInv (synthLoop parts st pre.length (joinSlash pre) rest)
        ∧ FutureOK (synthLoop parts st pre.length (joinSlash pre) rest) L := by
  intro rest
  induction rest with
  | nil => intro pre st _ hD hF; exact ⟨hD, hF⟩
  | cons part rest' ih =>
    intro pre st hsplit hD hF
    rw [synthLoop]
    have hcur : (if pre.length = 0 then part else joinSlash pre ++ "/" ++ part)
        = joinSlash (pre ++ [part]) := by
      rw [joinSlash_snoc]
      cases pre with
      | nil => simp
      | cons a l => simp
    have hlen : pre.length + 1 ≤ parts.length - 1 := by
      have h1 : parts.dropLast.length = pre.length + (rest'.length + 1) := by
        rw [hsplit]; simp
      have h2 : parts.dropLast.length = parts.length - 1 := List.length_dropLast parts
      omega
    have htake : parts.take (pre.length + 1) = pre ++ [part] := by
      have hdl : parts.take (pre.length + 1) = parts.dropLast.take (pre.length + 1) := by
        rw [List.dropLast_eq_take, List.take_take]
        congr 1
        omega
      rw [hdl, hsplit, List.take_append]
      simp
    have hcurfut : ∀ y ∈ L, y.path ≠ some (joinSlash (pre ++ [part])) := by
      rw [← htake]
      exact hfut (pre.length + 1) (by omega) hlen
    rw [hcur]
    obtain ⟨hD', hF'⟩ := synthStep_dirfut parts st pre.length part
      (joinSlash (pre ++ [part])) L hD hF hcurfut
    have hres := ih (pre ++ [part])
      (synthStep parts st pre.length part (joinSlash (pre ++ [part])))
      (by rw [hsplit, List.append_assoc]; rfl) hD' hF'
    simpa using hres

/-- The lookup table of `entryStep`, exactly. -/
theorem entryStep_dirIdx (st1 : BuildState) (pp name ty path : String) :
    (entryStep st1 pp name ty path).dirIdx
      = if ty = "directory" then (path, st1.nodes.length) :: st1.dirIdx
        else st1.dirIdx := by
  unfold entryStep
  dsimp only
  split <;> split <;> rfl

theorem dirInv_of_fields (st st' : BuildState) (hn : st'.nodes = st.nodes)
    (hd : st'.dirIdx = st.dirIdx) (h : DirInv st) : DirInv st' := by
  constructor
  · intro j1 j2 nd1 nd2 p h1 h2
    rw [hn] at h1 h2
    exact h.inj j1 j2 nd1 nd2 p h1 h2
  · intro nd hmem hdir p hp
    rw [hn] at hmem
    rw [hd]
    exact h.reg nd hmem hdir p hp

theorem futureOK_of_nodes (st st' : BuildState) (hn : st'.nodes = st.nodes)
    (L : List Item) (h : FutureOK st L) : FutureOK st' L := by
  intro nd hmem
  rw [hn] at hmem
  exact h nd hmem

theorem entryStep_dirfut (st1 : BuildState) (pp name ty path : String)
    (x : Item) (rest : List Item)
    (hD : DirInv st1) (hF : FutureOK st1 (x :: rest))
    (hx : x.path = some path)
    (hrest : ∀ y ∈ rest, y.path ≠ some path) :
    DirInv (entryStep st1 pp name ty path)
      ∧ FutureOK (entryStep st1 pp name ty path) rest := by
  constructor
  · apply dirInv_of_fields ⟨st1.nodes ++ [⟨name, ty, some path⟩], st1.edges,
      if ty = "directory" then (path, st1.nodes.length) :: st1.dirIdx else st1.dirIdx⟩
      _ (entryStep_nodes st1 pp name ty path) (entryStep_dirIdx st1 pp name ty path)
    refine dirInv_push st1 ⟨name, ty, some path⟩ _ _ hD ?_ ?_ ?_
    · intro hdir p hp
      cases hp
      intro nd' hmem hdir' hp'
      exact hF nd' hmem hdir' path hp' x (List.mem_cons_self x rest) hx
    · intro hdir p hp
      cases hp
      rw [if_pos hdir]
      exact ⟨st1.nodes.length, List.mem_cons_self _ _⟩
    · intro q j hj
      split
      · exact ⟨j, List.mem_cons.2 (Or.inr hj)⟩
      · exact ⟨j, hj⟩
  · apply futureOK_of_nodes ⟨st1.nodes ++ [⟨name, ty, some path⟩], st1.edges,
      if ty = "directory" then (path, st1.nodes.length) :: st1.dirIdx else st1.dirIdx⟩
      _ (entryStep_nodes st1 pp name ty path) rest
    refine futureOK_push st1 _ _ _ rest (futureOK_tail st1 x rest hF) ?_
    intro _ p hp
    cases hp
    exact hrest

theorem processItem_dirfut (pats : List String) (d : Int) (st : BuildState)
    (x : Item) (rest : List Item) (hD : DirInv st) (hF : FutureOK st (x :: rest))
    (hsorted : ∀ y ∈ rest, itemLt y x = false)
    (hnodup : ∀ y ∈ rest, ∀ q, x.path = some q → y.path ≠ some q) :
    DirInv (processItem pats d st x) ∧ FutureOK (processItem pats d st x) rest := by
  rcases x with ⟨p?, t?⟩
  cases p? with
  | none => exact ⟨hD, futureOK_tail st _ rest hF⟩
  | some path =>
    cases t? with
    | none => exact ⟨hD, futureOK_tail st _ rest hF⟩
    | some ty =>
      simp only [processItem]
      split
      · exact ⟨hD, futureOK_tail st _ rest hF⟩
      · split
        · exact ⟨hD, futureOK_tail st _ rest hF⟩
        · have hfutL : ∀ k, 1 ≤ k → k ≤ (splitSlash path).length - 1 →
              ∀ y ∈ (⟨some path, some ty⟩ : Item) :: rest,
                y.path ≠ some (joinSlash ((splitSlash path).take k)) := by
            intro k hk1 hk2 y hy hyc
            have hklt : keyLt (joinSlash ((splitSlash path).take k)).data
                path.data = true := by
              have h := keyLt_join_take path k hk1 hk2
              rwa [joinSlash_splitSlash] at h
            rcases List.mem_cons.1 hy with rfl | hy'
            · simp only at hyc
              injection hyc with hyc'
              rw [← hyc'] at hklt
              rw [keyLt_irrefl] at hklt
              cases hklt
            · have hs := hsorted y hy'
              unfold itemLt at hs
              have hkey : pathKey y = joinSlash ((splitSlash path).take k) := by
                unfold pathKey
                rw [hyc]
                rfl
              rw [hkey] at hs
              have hkx : pathKey (⟨some path, some ty⟩ : Item) = path := rfl
              rw [hkx] at hs
              have hklt' : keyLt (joinSlash ((splitSlash path).take k)).toList
                  path.toList = true := hklt
              rw [hs] at hklt'
              cases hklt'
          generalize (if joinSlash (splitSlash path).dropLast = "" then "/"
            else joinSlash (splitSlash path).dropLast) = pp0
          have hsyn := synthLoop_dirfut ((⟨some path, some ty⟩ : Item) :: rest)
            (splitSlash path) hfutL (splitSlash path).dropLast [] st (by simp) hD hF
          have hst1 : DirInv (if lookupDir st pp0 = none
                then synthLoop (splitSlash path) st 0 "" (splitSlash path).dropLast
                else st)
              ∧ FutureOK (if lookupDir st pp0 = none
                then synthLoop (splitSlash path) st 0 "" (splitSlash path).dropLast
                else st) ((⟨some path, some ty⟩ : Item) :: rest) := by
            split
            · exact hsyn
            · exact ⟨hD, hF⟩
          exact entryStep_dirfut _ _ _ _ _ (⟨some path, some ty⟩ : Item) rest
            hst1.1 hst1.2 rfl (fun y hy => hnodup y hy path rfl)

theorem initState_dirInv : DirInv initState := by
  constructor
  · intro j1 j2 nd1 nd2 p h1 h2 _ _ _ _
    have e1 : j1 < 1 := by simpa [initState] using lt_of_getElem?_some h1
    have e2 : j2 < 1 := by simpa [initState] using lt_of_getElem?_some h2
    omega
  · intro nd hmem _ p hp
    simp only [initState, List.mem_singleton] at hmem
    subst hmem
    simp [rootData] at hp

theorem initState_futureOK (L : List Item) : FutureOK initState L := by
  intro nd hmem _ p hp
  simp only [initState, List.mem_singleton] at hmem
  subst hmem
  simp [rootData] at hp

theorem buildFold_dirInv (pats : List String) (d : Int) :
    ∀ (l : List Item) (st : BuildState), DirInv st → FutureOK st l →
      SortedKeys l → (l.filterMap Item.path).Nodup →
      DirInv (l.foldl (processItem pats d) st)
  | [], _, hD, _, _, _ => hD
  | x :: l, st, hD, hF, hS, hN => by
    rw [List.foldl_cons]
    obtain ⟨hx, hS'⟩ := List.pairwise_cons.1 hS
    have hnodup : ∀ y ∈ l, ∀ q, x.path = some q → y.path ≠ some q := by
      intro y hy q hq hyq
      simp only [List.filterMap_cons, hq] at hN
      exact (List.nodup_cons.1 hN).1 (List.mem_filterMap.2 ⟨y, hy, hyq⟩)
    have hN' : (l.filterMap Item.path).Nodup := by
      cases hq : x.path with
      | none => simpa only [List.filterMap_cons, hq] using hN
      | some q =>
        simp only [List.filterMap_cons, hq] at hN
        exact (List.nodup_cons.1 hN).2
    have hres := processItem_dirfut pats d st x l hD hF hx hnodup
    exact buildFold_dirInv pats d l _ hres.1 hres.2 hS' hN'

theorem buildState_dirInv (e : List Item) (pats : List String) (d : Int)
    (hN : (e.filterMap Item.path).Nodup) : DirInv (buildState e pats d) := by
  unfold buildState
  refine buildFold_dirInv pats d (sortItems e) initState initState_dirInv
    (initState_futureOK _) (sortItems_sorted e) ?_
  exact (((sortItems_perm e).filterMap Item.path).nodup_iff).2 hN

/-! ## Directory paths of the materialized tree -/

theorem dirPathsL_flatten : ∀ (cs : List FNode), dirPathsL cs = (cs.map dirPaths).flatten
  | [] => rfl
  | t :: ts => by rw [dirPathsL, dirPathsL_flatten ts, List.map_cons, List.flatten_cons]

theorem filterMap_flatten {α β : Type} (f : α → Option β) :
    ∀ (L : List (List α)), L.flatten.filterMap f = (L.map (List.filterMap f)).flatten
  | [] => rfl
  | l :: L => by
    rw [List.flatten_cons, List.filterMap_append, filterMap_flatten f L,
      List.map_cons, List.flatten_cons]

/-- Unpack a directory observation on the log into the node it comes
from. -/
theorem dirAt_path_exists (st : BuildState) (j : Nat) (p : String)
    (hd : isDirAt st j = true) (hp : pathAt st j = some p) :
    ∃ nd, st.nodes[j]? = some nd ∧ nd.ntype = "directory" ∧ nd.path? = some p := by
  unfold isDirAt at hd
  unfold pathAt at hp
  cases hnd : st.nodes[j]? with
  | none =>
    rw [hnd] at hd
    cases hd
  | some nd =>
    rw [hnd] at hd hp
    simp only [beq_iff_eq] at hd
    simp only [Option.some_bind] at hp
    exact ⟨nd, rfl, hd, hp⟩

/-- The directory paths of the materialized tree are the paths of the
directory nodes among the visited ids. -/
theorem dirPaths_matW (st : BuildState)
    (htarg : ∀ e ∈ st.edges, e.2 < st.nodes.length) :
    ∀ i, i < st.nodes.length →
      dirPaths (matW st i)
        = (matIdsW st i).filterMap
            (fun j => if isDirAt st j then pathAt st j else none) := by
  intro i hlt
  cases hnd : st.nodes[i]? with
  | none => exact absurd hnd (by rw [List.getElem?_eq_getElem hlt]; simp)
  | some nd =>
    have hgi : (if isDirAt st i then pathAt st i else none)
        = if nd.ntype = "directory" then nd.path? else none := by
      by_cases hdd : nd.ntype = "directory" <;> simp [isDirAt, pathAt, hnd, hdd]
    have hhead : ∀ (l : List Nat) (q? : Option String),
        (if isDirAt st i then pathAt st i else none) = q? →
        (i :: l).filterMap (fun j => if isDirAt st j then pathAt st j else none)
          = q?.toList
            ++ l.filterMap (fun j => if isDirAt st j then pathAt st j else none) := by
      intro l q? hq
      simp only [List.filterMap_cons, hq]
      cases q? <;> simp
    by_cases hdd : nd.ntype = "directory"
    · rw [matW_dir st i nd hnd hdd, matIdsW_dir st i nd hnd hdd]
      rw [dirPaths, hhead _ nd.path? (by rw [hgi, if_pos hdd])]
      congr 1
      rw [dirPathsL_flatten, List.map_map, filterMap_flatten, List.map_map]
      congr 1
      apply List.map_congr_left
      intro c hc
      obtain ⟨hce, hci⟩ := wChildIds_mem st i c hc
      exact dirPaths_matW st htarg c (htarg _ hce)
    · rw [matW_file st i nd hnd hdd, matIdsW_file st i nd hnd hdd]
      rw [dirPaths, hhead _ none (by rw [hgi, if_neg hdd])]
      rfl
termination_by i => st.nodes.length - i
decreasing_by omega

/-! ## Exact coverage of the node log by the root traversal

Under the hypothesis that no tree-typed entry carries the root path `"/"`,
every created node is appended below a strictly earlier directory node, so
the traversal from the root visits every node id exactly once. -/

theorem lookupDir_same_dirIdx (n1 n2 : List NodeData) (e1 e2 : List (Nat × Nat))
    (d : List (String × Nat)) (q : String) :
    lookupDir ⟨n1, e1, d⟩ q = lookupDir ⟨n2, e2, d⟩ q := rfl

theorem lookupDir_cons_ne (nodes : List NodeData) (edges : List (Nat × Nat))
    (b : String × Nat) (rest : List (String × Nat)) (q : String) (h : ¬ b.1 = q) :
    lookupDir ⟨nodes, edges, b :: rest⟩ q = lookupDir ⟨nodes, edges, rest⟩ q := by
  unfold lookupDir
  rw [List.find?_cons_of_neg _ (by simp [h])]

theorem msetEq_push (st : BuildState) (nd : NodeData) (pid : Nat)
    (dIdx : List (String × Nat)) (hG : Good st)
    (hpidlt : pid < st.nodes.length) (hpiddir : isDirAt st pid = true)
    (hms : MsetEq st) :
    MsetEq ⟨st.nodes ++ [nd], st.edges ++ [(pid, st.nodes.length)], dIdx⟩ := by
  unfold MsetEq at *
  have h0 : 0 < st.nodes.length := lt_of_getElem?_some hG.root0
  rw [matIdsW_push st nd pid dIdx hG.src_lt hG.targ_lt hpidlt hpiddir 0 h0]
  rw [hms]
  have hcount : (matIdsW st 0).count pid = 1 := by
    have hperm : (matIdsW st 0).Perm (List.range st.nodes.length) :=
      Multiset.coe_eq_coe.1 hms
    rw [hperm.count_eq]
    exact List.count_eq_one_of_mem (List.nodup_range _) (List.mem_range.2 hpidlt)
  rw [hcount]
  show Multiset.range st.nodes.length + Multiset.replicate 1 st.nodes.length
      = Multiset.range (st.nodes ++ [nd]).length
  rw [Multiset.replicate_one, List.length_append, List.length_singleton,
    Multiset.range_succ, add_comm, Multiset.singleton_add]

theorem synthStep_mset (parts : List String) (st : BuildState) (i : Nat)
    (part cur : String) (hG : Good st) (hms : MsetEq st) :
    MsetEq (synthStep parts st i part cur) := by
  unfold synthStep
  split
  · cases hl : lookupDir st (popOf parts i) with
    | none => exact hms
    | some pid =>
      have hmem := lookupDir_mem st _ pid hl
      exact msetEq_push st _ pid _ hG (hG.dir_lt _ hmem) (hG.dir_isdir _ hmem) hms
  · exact hms

theorem synthLoop_mset (parts : List String) :
    ∀ (rest : List String) (st : BuildState) (i : Nat) (cur : String),
      Good st → MsetEq st → MsetEq (synthLoop parts st i cur rest)
  | [], _, _, _, _, hms => hms
  | part :: rest, st, i, cur, hG, hms => by
    rw [synthLoop]
    exact synthLoop_mset parts rest _ (i + 1) _
      (synthStep_good parts st i part _ hG) (synthStep_mset parts st i part _ hG hms)

theorem entryStep_mset (st1 : BuildState) (pp name ty path : String) (hG : Good st1)
    (hpp : ∃ j, (pp, j) ∈ st1.dirIdx)
    (hne : ty = "directory" → ¬ pp = path)
    (hms : MsetEq st1) : MsetEq (entryStep st1 pp name ty path) := by
  obtain ⟨j, hj⟩ := hpp
  unfold entryStep
  dsimp only
  by_cases hty : ty = "directory"
  · rw [if_pos hty]
    have hlk : lookupDir ⟨st1.nodes ++ [⟨name, ty, some path⟩], st1.edges,
          (path, st1.nodes.length) :: st1.dirIdx⟩ pp
        = lookupDir st1 pp := by
      rw [lookupDir_cons_ne _ _ _ _ _ (fun h => hne hty h.symm)]
      exact lookupDir_same_dirIdx _ _ _ _ _ _
    cases hl : lookupDir ⟨st1.nodes ++ [⟨name, ty, some path⟩], st1.edges,
        (path, st1.nodes.length) :: st1.dirIdx⟩ pp with
    | none =>
      exfalso
      obtain ⟨k, hk⟩ := lookupDir_isSome_of_mem
        ⟨st1.nodes ++ [⟨name, ty, some path⟩], st1.edges,
          (path, st1.nodes.length) :: st1.dirIdx⟩ pp j
        (List.mem_cons.2 (Or.inr hj))
      rw [hl] at hk
      cases hk
    | some pid =>
      rw [hlk] at hl
      have hmem := lookupDir_mem st1 pp pid hl
      exact msetEq_push st1 _ pid _ hG (hG.dir_lt _ hmem) (hG.dir_isdir _ hmem) hms
  · rw [if_neg hty]
    cases hl : lookupDir ⟨st1.nodes ++ [⟨name, ty, some path⟩], st1.edges,
        st1.dirIdx⟩ pp with
    | none =>
      exfalso
      obtain ⟨k, hk⟩ := lookupDir_isSome_of_mem
        ⟨st1.nodes ++ [⟨name, ty, some path⟩], st1.edges, st1.dirIdx⟩ pp j hj
      rw [hl] at hk
      cases hk
    | some pid =>
      have hl' : lookupDir st1 pp = some pid := hl
      have hmem := lookupDir_mem st1 pp pid hl'
      exact msetEq_push st1 _ pid _ hG (hG.dir_lt _ hmem) (hG.dir_isdir _ hmem) hms

theorem processItem_mset (pats : List String) (d : Int) (st : BuildState) (it : Item)
    (hG : Good st) (hms : MsetEq st)
    (hno : ¬(it.path = some "/" ∧ it.type = some "tree")) :
    MsetEq (processItem pats d st it) := by
  rcases it with ⟨p?, t?⟩
  cases p? with
  | none => exact hms
  | some path =>
    cases t? with
    | none => exact hms
    | some ty =>
      simp only [processItem]
      split
      · exact hms
      · split
        · exact hms
        · have hty' : classifyType ty = "directory" → ty = "tree" := by
            intro h
            by_cases ht : ty = "tree"
            · exact ht
            · unfold classifyType at h
              rw [if_neg ht] at h
              exact absurd h (by decide)
          have hpathne : classifyType ty = "directory" → ¬ path = "/" := by
            intro h hp
            simp only at hno
            exact hno ⟨by rw [hp], by rw [hty' h]⟩
          have hpp0ne : classifyType ty = "directory" →
              ¬ (if joinSlash (splitSlash path).dropLast = "" then "/"
                 else joinSlash (splitSlash path).dropLast) = path := by
            intro hdty
            split
            · exact fun h => hpathne hdty (h.symm)
            · rename_i hne0
              intro heq
              have hlen : 1 ≤ (splitSlash path).length := by
                have h := splitSlash_ne_nil path
                cases hc : splitSlash path with
                | nil => exact absurd hc h
                | cons a l => simp
              have hlen2 : 2 ≤ (splitSlash path).length := by
                by_contra hc
                have h1 : (splitSlash path).length = 1 := by omega
                have hdl : (splitSlash path).dropLast = [] := by
                  rw [List.dropLast_eq_take, h1]
                  rfl
                rw [hdl] at hne0
                exact hne0 rfl
              have hkey : keyLt (joinSlash
                  ((splitSlash path).take ((splitSlash path).length - 1))).data
                  path.data = true := by
                have h := keyLt_join_take path ((splitSlash path).length - 1)
                  (by omega) (by omega)
                rwa [joinSlash_splitSlash] at h
              rw [← List.dropLast_eq_take, heq, keyLt_irrefl] at hkey
              cases hkey
          generalize hgen : (if joinSlash (splitSlash path).dropLast = "" then "/"
            else joinSlash (splitSlash path).dropLast) = pp0
          rw [hgen] at hpp0ne
          have hst1G : Good (if lookupDir st pp0 = none
              then synthLoop (splitSlash path) st 0 "" (splitSlash path).dropLast
              else st) := by
            split
            · exact synthLoop_good (splitSlash path) (splitSlash path).dropLast st 0 "" hG
            · exact hG
          have hst1M : MsetEq (if lookupDir st pp0 = none
              then synthLoop (splitSlash path) st 0 "" (splitSlash path).dropLast
              else st) := by
            split
            · exact synthLoop_mset (splitSlash path) (splitSlash path).dropLast st 0 "" hG hms
            · exact hms
          apply entryStep_mset _ _ _ _ _ hst1G ?_ ?_ hst1M
          · cases hl : lookupDir (if lookupDir st pp0 = none
                then synthLoop (splitSlash path) st 0 "" (splitSlash path).dropLast
                else st) pp0 with
            | none =>
              rw [if_pos rfl]
              exact ⟨0, hst1G.root_mem⟩
            | some j =>
              rw [show (if (some j = none) then "/" else pp0) = pp0 from rfl]
              exact ⟨j, lookupDir_mem _ pp0 j hl⟩
          · cases hl : lookupDir (if lookupDir st pp0 = none
                then synthLoop (splitSlash path) st 0 "" (splitSlash path).dropLast
                else st) pp0 with
            | none =>
              rw [if_pos rfl]
              exact fun hd h => hpathne hd h.symm
            | some j =>
              rw [show (if (some j = none) then "/" else pp0) = pp0 from rfl]
              exact fun hd h => hpp0ne hd h

theorem initState_mset : MsetEq initState := by
  unfold MsetEq
  rw [matIdsW_dir initState 0 rootData rfl rfl]
  rw [show wChildIds initState 0 = [] from rfl]
  simp only [List.map_nil, List.flatten_nil]
  show Multiset.ofList [0] = Multiset.range 1
  simp [Multiset.range_succ]

theorem buildFold_mset (pats : List String) (d : Int) :
    ∀ (l : List Item) (st : BuildState), Good st → MsetEq st →
      (∀ it ∈ l, ¬(it.path = some "/" ∧ it.type = some "tree")) →
      MsetEq (l.foldl (processItem pats d) st)
  | [], _, _, hms, _ => hms
  | x :: l, st, hG, hms, hno => by
    rw [List.foldl_cons]
    exact buildFold_mset pats d l _ (processItem_good pats d st x hG)
      (processItem_mset pats d st x hG hms (hno x (List.mem_cons_self x l)))
      (fun it hit => hno it (List.mem_cons.2 (Or.inr hit)))

theorem buildState_mset (e : List Item) (pats : List String) (d : Int)
    (hno : ∀ it ∈ e, ¬(it.path = some "/" ∧ it.type = some "tree")) :
    MsetEq (buildState e pats d) := by
  unfold buildState
  refine buildFold_mset pats d (sortItems e) initState initState_good initState_mset ?_
  intro it hit
  exact hno it ((sortItems_perm e).mem_iff.1 hit)

/-! ## Counting nodes -/

theorem countFiles_file (n p : String) : countFiles (.file n p) = (1, 0) := by
  rw [countFiles]

theorem countFiles_dir (n : String) (p? : Option String) (cs : List FNode) :
    countFiles (.dir n p? cs) = ((countFilesL cs).1, (countFilesL cs).2 + 1) := by
  rw [countFiles]

theorem countFilesL_nil : countFilesL [] = (0, 0) := by
  rw [countFilesL]

theorem countFilesL_cons (t : FNode) (ts : List FNode) :
    countFilesL (t :: ts) = ((countFiles t).1 + (countFilesL ts).1,
      (countFiles t).2 + (countFilesL ts).2) := by
  rw [countFilesL]

/-- `countFilesL` sums `countFiles` componentwise over the children. -/
theorem countFilesL_sum : ∀ cs : List FNode,
    countFilesL cs = ((cs.map (fun t => (countFiles t).1)).sum,
      (cs.map (fun t => (countFiles t).2)).sum)
  | [] => countFilesL_nil
  | t :: ts => by
    rw [countFilesL_cons, countFilesL_sum ts]
    simp

theorem countP_flatten {α : Type} (p : α → Bool) :
    ∀ L : List (List α), L.flatten.countP p = (L.map (fun l => l.countP p)).sum
  | [] => rfl
  | l :: L => by
    rw [List.flatten_cons, List.countP_append, countP_flatten p L,
      List.map_cons, List.sum_cons]

theorem countP_not_add {α : Type} (p : α → Bool) :
    ∀ l : List α, l.countP p + l.countP (fun a => !(p a)) = l.length
  | [] => rfl
  | a :: l => by
    rw [List.countP_cons, List.countP_cons, List.length_cons, ← countP_not_add p l]
    cases h : p a <;> simp [h] <;> omega

theorem countP_congr_mem {α : Type} (p q : α → Bool) (l : List α)
    (h : ∀ a ∈ l, p a = q a) : l.countP p = l.countP q := by
  rw [List.countP_eq_length_filter, List.countP_eq_length_filter, List.filter_congr h]

/-- Counting positions of `range` through the lookup of a list equals
counting the list itself. -/
theorem countP_range_getElem {α : Type} (p : α → Bool) (l : List α) :
    (List.range l.length).countP (fun j => (l[j]?).elim false p) = l.countP p := by
  induction l using List.reverseRecOn with
  | nil => rfl
  | append_singleton l a ih =>
    rw [List.length_append, List.length_singleton, List.range_succ,
      List.countP_append, List.countP_append]
    have hlast : (l ++ [a])[l.length]? = some a := by
      rw [List.getElem?_append_right (le_refl _)]
      simp
    have hpre : (List.range l.length).countP
        (fun j => ((l ++ [a])[j]?).elim false p)
        = (List.range l.length).countP (fun j => (l[j]?).elim false p) := by
      apply countP_congr_mem
      intro j hj
      rw [List.getElem?_append, if_pos (List.mem_range.1 hj)]
    rw [hpre, ih]
    have hone : ([l.length].countP (fun j => ((l ++ [a])[j]?).elim false p))
        = [a].countP p := by
      rw [List.countP_cons, List.countP_cons]
      simp only [hlast, List.countP_nil, Option.elim_some]
    rw [hone]
termination_by l.length

/-- `countFiles` on the materialized tree counts the visited file and
directory ids. -/
theorem countFiles_matW (st : BuildState)
    (htarg : ∀ e ∈ st.edges, e.2 < st.nodes.length) :
    ∀ i, i < st.nodes.length →
      countFiles (matW st i)
        = ((matIdsW st i).countP (fun j => isFileAt st j),
           (matIdsW st i).countP (fun j => isDirAt st j)) := by
  intro i hlt
  cases hnd : st.nodes[i]? with
  | none => exact absurd hnd (by rw [List.getElem?_eq_getElem hlt]; simp)
  | some nd =>
    have hfi : isFileAt st i = (!(nd.ntype == "directory")) := by
      unfold isFileAt
      rw [hnd]
    have hdi : isDirAt st i = (nd.ntype == "directory") := by
      unfold isDirAt
      rw [hnd]
    by_cases hdd : nd.ntype = "directory"
    · rw [matW_dir st i nd hnd hdd, matIdsW_dir st i nd hnd hdd]
      rw [countFiles_dir, countFilesL_sum, List.map_map, List.map_map]
      have hcong : ∀ c ∈ wChildIds st i, countFiles (matW st c)
          = ((matIdsW st c).countP (fun j => isFileAt st j),
             (matIdsW st c).countP (fun j => isDirAt st j)) := by
        intro c hc
        obtain ⟨hce, hci⟩ := wChildIds_mem st i c hc
        exact countFiles_matW st htarg c (htarg _ hce)
      have hmap1 : (wChildIds st i).map ((fun t => (countFiles t).1) ∘ matW st)
          = (wChildIds st i).map
              (fun c => (matIdsW st c).countP (fun j => isFileAt st j)) := by
        apply List.map_congr_left
        intro c hc
        show (countFiles (matW st c)).1 = _
        rw [hcong c hc]
      have hmap2 : (wChildIds st i).map ((fun t => (countFiles t).2) ∘ matW st)
          = (wChildIds st i).map
              (fun c => (matIdsW st c).countP (fun j => isDirAt st j)) := by
        apply List.map_congr_left
        intro c hc
        show (countFiles (matW st c)).2 = _
        rw [hcong c hc]
      rw [hmap1, hmap2]
      rw [List.countP_cons, List.countP_cons, hfi, hdi]
      rw [countP_flatten, countP_flatten, List.map_map, List.map_map]
      simp [hdd]
      exact ⟨rfl, rfl⟩
    · rw [matW_file st i nd hnd hdd, matIdsW_file st i nd hnd hdd]
      rw [countFiles_file]
      rw [List.countP_cons, List.countP_cons, hfi, hdi]
      simp [hdd]
termination_by i => st.nodes.length - i
decreasing_by omega

mutual

/-- `countFiles` counts exactly the file nodes and the directory nodes of
the tree, each node once. -/
theorem countFiles_nodesList : ∀ t : FNode,
    countFiles t = ((nodesList t).countP isFileNode, (nodesList t).countP isDirNode)
  | .file n p => by
    rw [countFiles_file, nodesList]
    simp [List.countP_cons, isFileNode, isDirNode]
  | .dir n p? cs => by
    rw [countFiles_dir, countFilesL_nodesListL cs, nodesList]
    simp [List.countP_cons, List.countP_append, isFileNode, isDirNode]

/-- The list version of `countFiles_nodesList`. -/
theorem countFilesL_nodesListL : ∀ cs : List FNode,
    countFilesL cs
      = ((nodesListL cs).countP isFileNode, (nodesListL cs).countP isDirNode)
  | [] => by
    rw [countFilesL_nil, nodesListL]
    simp
  | t :: ts => by
    rw [countFilesL_cons, countFiles_nodesList t, countFilesL_nodesListL ts,
      nodesListL]
    simp [List.countP_append]

end

/-! ## The file count of the full pass -/

theorem shouldIgnore_nil (path : String) : shouldIgnore path [] = false := by
  simp [shouldIgnore]

theorem synthStep_nodes_dirs (parts : List String) (st : BuildState) (i : Nat)
    (part cur : String) :
    ∃ s, (synthStep parts st i part cur).nodes = st.nodes ++ s
      ∧ ∀ nd ∈ s, nd.ntype = "directory" := by
  unfold synthStep
  split
  · cases lookupDir st (popOf parts i) with
    | none => exact ⟨[], by simp, by simp⟩
    | some pid =>
      refine ⟨[⟨part, "directory", some cur⟩], rfl, ?_⟩
      intro nd h
      rw [List.mem_singleton] at h
      subst h
      rfl
  · exact ⟨[], by simp, by simp⟩

theorem synthLoop_nodes_dirs (parts : List String) :
    ∀ (rest : List String) (st : BuildState) (i : Nat) (cur : String),
      ∃ s, (synthLoop parts st i cur rest).nodes = st.nodes ++ s
        ∧ ∀ nd ∈ s, nd.ntype = "directory"
  | [], st, _, _ => ⟨[], by simp [synthLoop], by simp⟩
  | part :: rest, st, i, cur => by
    rw [synthLoop]
    obtain ⟨s₁, h₁, hd₁⟩ := synthStep_nodes_dirs parts st i part
      (if i = 0 then part else cur ++ "/" ++ part)
    obtain ⟨s₂, h₂, hd₂⟩ := synthLoop_nodes_dirs parts rest
      (synthStep parts st i part (if i = 0 then part else cur ++ "/" ++ part))
      (i + 1) (if i = 0 then part else cur ++ "/" ++ part)
    refine ⟨s₁ ++ s₂, by rw [h₂, h₁, List.append_assoc], ?_⟩
    intro nd h
    rcases List.mem_append.1 h with h' | h'
    · exact hd₁ nd h'
    · exact hd₂ nd h'

/-- Each processed entry adds exactly one file node when it is a
complete non-tree entry, and no file node otherwise (full pass: no ignore
patterns, no depth limit). -/
theorem processItem_filesCnt (st : BuildState) (it : Item) :
    (processItem [] (-1) st it).nodes.countP (fun nd => !(nd.ntype == "directory"))
      = st.nodes.countP (fun nd => !(nd.ntype == "directory"))
        + (if isFileEntry it then 1 else 0) := by
  rcases it with ⟨p?, t?⟩
  cases p? with
  | none => simp [processItem, isFileEntry]
  | some path =>
    cases t? with
    | none => simp [processItem, isFileEntry]
    | some ty =>
      simp only [processItem]
      rw [if_neg (by simp [shouldIgnore_nil])]
      rw [if_neg (fun h => absurd h.1 (by norm_num))]
      generalize (if joinSlash (splitSlash path).dropLast = "" then "/"
        else joinSlash (splitSlash path).dropLast) = pp0
      have hsyn : ∃ s, (if lookupDir st pp0 = none
          then synthLoop (splitSlash path) st 0 "" (splitSlash path).dropLast
          else st).nodes = st.nodes ++ s ∧ ∀ nd ∈ s, nd.ntype = "directory" := by
        split
        · exact synthLoop_nodes_dirs (splitSlash path) (splitSlash path).dropLast st 0 ""
        · exact ⟨[], by simp, by simp⟩
      obtain ⟨s, hs, hdirs⟩ := hsyn
      rw [entryStep_nodes, hs, List.countP_append, List.countP_append]
      have hzero : s.countP (fun nd => !(nd.ntype == "directory")) = 0 := by
        rw [List.countP_eq_zero]
        intro nd hnd
        rw [hdirs nd hnd]
        simp
      rw [hzero]
      have hone : ([(⟨(splitSlash path).getLastD "", classifyType ty, some path⟩ :
            NodeData)].countP (fun nd => !(nd.ntype == "directory")))
          = if isFileEntry ⟨some path, some ty⟩ then 1 else 0 := by
        by_cases ht : ty = "tree"
        · simp [classifyType, isFileEntry, ht]
        · simp [classifyType, isFileEntry, ht]
      rw [hone]
      omega

/-- The file-node count over the whole pass. -/
theorem buildFold_filesCnt :
    ∀ (l : List Item) (st : BuildState),
      ((l.foldl (processItem [] (-1)) st).nodes.countP
          (fun nd => !(nd.ntype == "directory")))
        = st.nodes.countP (fun nd => !(nd.ntype == "directory"))
          + l.countP isFileEntry
  | [], _ => by simp
  | x :: l, st => by
    rw [List.foldl_cons, buildFold_filesCnt l _, processItem_filesCnt,
      List.countP_cons]
    generalize (if isFileEntry x then 1 else 0) = k
    omega

/-! ## Claim theorems -/

/-- C1 counterexample: the claim says `shouldIgnore` returns false on path
`"a.log.txt"` for the single pattern `"*.log"`, but the source matches with
`re.match`, which is not anchored at the end of the path, so the prefix
`"a.log"` already matches and the call returns true. -/
theorem c1_counterexample : shouldIgnore "a.log.txt" ["*.log"] = true := by decide

/-- C1 amended: for the single ignore pattern `"*.log"`, `shouldIgnore`
returns true for `"logs/output.log"` and `"a.log"`, and also returns true for
`"a.log.txt"`, because the generated regex only needs to match a prefix of
the path. -/
theorem c1_theorem :
    shouldIgnore "logs/output.log" ["*.log"] = true
    ∧ shouldIgnore "a.log" ["*.log"] = true
    ∧ shouldIgnore "a.log.txt" ["*.log"] = true := by
  refine ⟨by decide, by decide, by decide⟩

/-- C2 counterexample: the claim says the pattern `"node_modules/"` matches
the bare directory path `"node_modules"`, but the generated regex
`.*node_modules/.*` requires the literal slash, which the bare path does not
contain, so `shouldIgnore` returns false on it. -/
theorem c2_counterexample : shouldIgnore "node_modules" ["node_modules/"] = false := by
  decide

/-- C2 amended: for the pattern `"node_modules/"`, every path that starts
with `"node_modules/"` (every descendant of the directory) is matched, while
the bare directory path `"node_modules"` is not; consequently
`buildFileTree` keeps the directory entry itself and omits everything under
it. -/
theorem c2_theorem :
    (∀ rest : String, shouldIgnore ("node_modules/" ++ rest) ["node_modules/"] = true)
    ∧ shouldIgnore "node_modules" ["node_modules/"] = false
    ∧ buildFileTree nmDemo ["node_modules/"] (-1)
        = .dir "/" none [.dir "node_modules" (some "node_modules") []] := by
  refine ⟨?_, by decide, rfl⟩
  intro rest
  have hc : compileRegex "node_modules/"
      = some (.star .any ::
          (("node_modules/".toList.map (fun c => RItem.once (.lit c))) ++ [.star .any])) := by
    decide
  have hne : ¬("node_modules/" ++ rest = "") := by
    simp [String.ext_iff]
  have htl : ("node_modules/" ++ rest).toList = "node_modules/".toList ++ rest.toList := by
    simp
  unfold shouldIgnore
  rw [if_neg (by simp [hne])]
  simp only [List.any_cons, List.any_nil, Bool.or_false]
  rw [if_neg (by decide)]
  unfold matchesPattern
  rw [hc, htl]
  apply matchItems_star_of
  exact matchItems_lits "node_modules/".toList [.star .any] rest.toList
    (matchItems_star_of _ _ _ (matchItems_nil _))

/-- C3 counterexample: the claim says every directory path is represented by
exactly one directory node for all inputs, but two input entries with the
same path `"a"` and kind `"tree"` each create their own node — the dict
overwrite in `dir_nodes` shadows the first node without removing it from the
root's children — so the path `"a"` appears on two directory nodes of the
resulting tree. -/
theorem c3_counterexample :
    ¬ (dirPaths (buildFileTree dupDemo [] (-1))).Nodup := by
  have ht : buildFileTree dupDemo [] (-1)
      = .dir "/" none [.dir "a" (some "a") [], .dir "a" (some "a") []] := rfl
  rw [ht]
  simp [dirPaths, dirPathsL]

/-- C3 amended: when the input entry paths are pairwise distinct, each
directory path is represented by exactly one directory node of the resulting
tree (for all ignore patterns and depth limits): the list of directory-node
paths of the tree has no duplicate. -/
theorem c3_theorem (entries : List Item) (pats : List String) (d : Int)
    (hN : (entries.filterMap Item.path).Nodup) :
    (dirPaths (buildFileTree entries pats d)).Nodup := by
  unfold buildFileTree
  split
  · rw [dirPaths]
    simp [dirPathsL]
  · unfold materialize
    have hG := buildState_good entries pats d
    have hD := buildState_dirInv entries pats d hN
    have h0 : 0 < (buildState entries pats d).nodes.length :=
      lt_of_getElem?_some hG.root0
    rw [matN_eq_matW _ hG.targ_pos hG.targ_lt hG.edge_le hG.targ_nodup
      (buildState entries pats d).nodes.length 0 (by omega) (Or.inl rfl)]
    rw [dirPaths_matW _ hG.targ_lt 0 h0]
    have hidsnd : (matIdsW (buildState entries pats d) 0).Nodup := by
      have hms := Multiset.nodup_of_le hG.mset_le (Multiset.nodup_range _)
      exact Multiset.coe_nodup.1 hms
    refine List.Nodup.filterMap ?_ hidsnd
    intro j1 j2 p hp1 hp2
    have hu1 : isDirAt (buildState entries pats d) j1 = true
        ∧ pathAt (buildState entries pats d) j1 = some p := by
      by_cases h1 : isDirAt (buildState entries pats d) j1
      · rw [if_pos h1] at hp1
        exact ⟨h1, hp1⟩
      · rw [if_neg h1] at hp1
        cases hp1
    have hu2 : isDirAt (buildState entries pats d) j2 = true
        ∧ pathAt (buildState entries pats d) j2 = some p := by
      by_cases h2 : isDirAt (buildState entries pats d) j2
      · rw [if_pos h2] at hp2
        exact ⟨h2, hp2⟩
      · rw [if_neg h2] at hp2
        cases hp2
    obtain ⟨nd1, hnd1, hd1, hq1⟩ := dirAt_path_exists _ j1 p hu1.1 hu1.2
    obtain ⟨nd2, hnd2, hd2, hq2⟩ := dirAt_path_exists _ j2 p hu2.1 hu2.2
    exact hD.inj j1 j2 nd1 nd2 p hnd1 hnd2 hd1 hd2 hq1 hq2

/-- C3 witness: the amended theorem applied to the concrete single-entry
input, whose entry paths are trivially duplicate-free. -/
theorem c3_witness :
    (synthDemo.filterMap Item.path).Nodup
      ∧ (dirPaths (buildFileTree synthDemo [] (-1))).Nodup :=
  ⟨by decide, c3_theorem synthDemo [] (-1) (by decide)⟩

/-- C4: a single entry `a/b/c.txt` produces synthesized directory nodes `a`
and `a/b`, with the file as sole leaf, each node the sole child of its
parent. -/
theorem c4_theorem :
    buildFileTree synthDemo [] (-1)
      = .dir "/" none [.dir "a" (some "a")
          [.dir "b" (some "a/b") [.file "c.txt" "a/b/c.txt"]]] := rfl

/-- C5: when `maxDepth` is nonnegative, every path of every node of the
resulting tree — in particular the path of every included entry — has depth
at most `maxDepth` (depth = number of slash-separated segments minus one), so
an entry whose depth exceeds the bound is excluded; with `maxDepth = 1`, the
entry `a/b/c.txt` (depth 2) is excluded while `a/b.txt` (depth 1) is
included. -/
theorem c5_theorem :
    (∀ (entries : List Item) (pats : List String) (d : Int), 0 ≤ d →
      ∀ p ∈ treePaths (buildFileTree entries pats d), pathDepth p ≤ d)
    ∧ "a/b/c.txt" ∉ treePaths (buildFileTree depthDemo [] 1)
    ∧ "a/b.txt" ∈ treePaths (buildFileTree depthDemo [] 1) := by
  have ht : buildFileTree depthDemo [] 1
      = .dir "/" none [.dir "a" (some "a") [.file "b.txt" "a/b.txt"]] := rfl
  refine ⟨?_, ?_, ?_⟩
  · intro entries pats d hd p hp
    unfold buildFileTree at hp
    split at hp
    · rw [treePaths] at hp
      simp [treePathsL] at hp
    · unfold materialize at hp
      rcases treePaths_matN _ _ _ p hp with ⟨nd, hmem, hpath⟩ | rfl
      · exact buildState_depth entries pats d hd nd hmem p hpath
      · have h0 : pathDepth "" = 0 := by decide
        omega
  · rw [ht]
    simp [treePaths, treePathsL]
  · rw [ht]
    simp [treePaths, treePathsL]

/-- C5 witness: the depth bound applied at maxDepth 1 to the included
concrete entry. -/
theorem c5_witness : pathDepth "a/b.txt" ≤ 1 := by
  refine c5_theorem.1 depthDemo [] 1 (by norm_num) "a/b.txt" ?_
  have ht : buildFileTree depthDemo [] 1
      = .dir "/" none [.dir "a" (some "a") [.file "b.txt" "a/b.txt"]] := rfl
  rw [ht]
  simp [treePaths, treePathsL]

/-- C6 counterexample: the claim quantifies over every entry list, but a
tree-typed entry with path `"/"` rebinds the root key of the lookup table to
its own node, which receives a self-append; the following file entry is then
attached below that node instead of the root, so the returned tree is the
bare root: files + directories is 1 while three nodes were produced, and the
file count is 0 while one unfiltered file entry exists. -/
theorem c6_counterexample :
    (countFiles (buildFileTree rootHijackDemo [] (-1))).1
        + (countFiles (buildFileTree rootHijackDemo [] (-1))).2
      ≠ (buildState rootHijackDemo [] (-1)).nodes.length
    ∧ (countFiles (buildFileTree rootHijackDemo [] (-1))).1
      ≠ rootHijackDemo.countP isFileEntry := by
  have ht : buildFileTree rootHijackDemo [] (-1) = .dir "/" none [] := rfl
  have hlen : (buildState rootHijackDemo [] (-1)).nodes.length = 3 := rfl
  rw [ht, countFiles_dir, countFilesL_nil, hlen]
  exact ⟨by decide, by decide⟩

/-- C6 amended: `countFiles` counts each directory node once (including the
root) and each file node once; the bare root counts as zero files and one
directory; and for every entry list in which no tree-typed entry carries the
root path `"/"`, the full pass (no patterns, no depth limit) satisfies
files + directories = total number of created nodes, and files = number of
complete non-tree entries. -/
theorem c6_theorem :
    (∀ t : FNode, countFiles t
        = ((nodesList t).countP isFileNode, (nodesList t).countP isDirNode))
    ∧ countFiles (.dir "/" none []) = (0, 1)
    ∧ ∀ entries : List Item,
        (∀ it ∈ entries, ¬(it.path = some "/" ∧ it.type = some "tree")) →
        (countFiles (buildFileTree entries [] (-1))).1
            + (countFiles (buildFileTree entries [] (-1))).2
          = (buildState entries [] (-1)).nodes.length
        ∧ (countFiles (buildFileTree entries [] (-1))).1
          = entries.countP isFileEntry := by
  refine ⟨countFiles_nodesList, ?_, ?_⟩
  · rw [countFiles_dir, countFilesL_nil]
  · intro entries hno
    unfold buildFileTree
    split
    · rename_i hemp
      have he : entries = [] := List.isEmpty_iff.1 hemp
      subst he
      rw [countFiles_dir, countFilesL_nil]
      exact ⟨rfl, rfl⟩
    · have hG := buildState_good entries [] (-1)
      have hM := buildState_mset entries [] (-1) hno
      have h0 : 0 < (buildState entries [] (-1)).nodes.length :=
        lt_of_getElem?_some hG.root0
      unfold materialize
      rw [matN_eq_matW _ hG.targ_pos hG.targ_lt hG.edge_le hG.targ_nodup
        (buildState entries [] (-1)).nodes.length 0 (by omega) (Or.inl rfl)]
      rw [countFiles_matW _ hG.targ_lt 0 h0]
      have hperm : (matIdsW (buildState entries [] (-1)) 0).Perm
          (List.range (buildState entries [] (-1)).nodes.length) :=
        Multiset.coe_eq_coe.1 hM
      have hfileP : (fun j => isFileAt (buildState entries [] (-1)) j)
          = (fun j => ((buildState entries [] (-1)).nodes[j]?).elim false
              (fun nd => !(nd.ntype == "directory"))) := by
        funext j
        unfold isFileAt
        cases (buildState entries [] (-1)).nodes[j]? <;> rfl
      have hdirP : (fun j => isDirAt (buildState entries [] (-1)) j)
          = (fun j => ((buildState entries [] (-1)).nodes[j]?).elim false
              (fun nd => (nd.ntype == "directory"))) := by
        funext j
        unfold isDirAt
        cases (buildState entries [] (-1)).nodes[j]? <;> rfl
      have hfcnt : (matIdsW (buildState entries [] (-1)) 0).countP
            (fun j => isFileAt (buildState entries [] (-1)) j)
          = (buildState entries [] (-1)).nodes.countP
              (fun nd => !(nd.ntype == "directory")) := by
        rw [hperm.countP_eq, hfileP]
        exact countP_range_getElem (fun nd => !(nd.ntype == "directory"))
          (buildState entries [] (-1)).nodes
      have hdcnt : (matIdsW (buildState entries [] (-1)) 0).countP
            (fun j => isDirAt (buildState entries [] (-1)) j)
          = (buildState entries [] (-1)).nodes.countP
              (fun nd => (nd.ntype == "directory")) := by
        rw [hperm.countP_eq, hdirP]
        exact countP_range_getElem (fun nd => (nd.ntype == "directory"))
          (buildState entries [] (-1)).nodes
      dsimp only
      rw [hfcnt, hdcnt]
      constructor
      · rw [Nat.add_comm]
        exact countP_not_add _ _
      · show (buildState entries [] (-1)).nodes.countP
            (fun nd => !(nd.ntype == "directory")) = entries.countP isFileEntry
        unfold buildState
        rw [buildFold_filesCnt]
        rw [show (initState.nodes.countP (fun nd => !(nd.ntype == "directory"))) = 0
          from rfl]
        rw [(sortItems_perm entries).countP_eq]
        omega

/-- C6 witness: the amended count theorem applied to the concrete one-entry
input, which has no tree-typed root-path entry. -/
theorem c6_witness :
    (∀ it ∈ synthDemo, ¬(it.path = some "/" ∧ it.type = some "tree"))
    ∧ (countFiles (buildFileTree synthDemo [] (-1))).1 = synthDemo.countP isFileEntry :=
  ⟨by decide, (c6_theorem.2.2 synthDemo (by decide)).2⟩

/-- C7: the builder is a pure function, so two runs on the same entries,
patterns and depth produce structurally identical trees; and children keep
the insertion order of the sorted-entries pass: in the example the children
of directory `a` are the file `b-` followed by the directory `b`, which is
insertion order by full path, not re-sorted by name. -/
theorem c7_theorem :
    (∀ (e : List Item) (p : List String) (d : Int),
      structEq (buildFileTree e p d) (buildFileTree e p d) = true)
    ∧ buildFileTree orderDemo [] (-1)
        = .dir "/" none [.dir "a" (some "a")
            [.file "b-" "a/b-", .dir "b" (some "a/b") [.file "c" "a/b/c"]]] :=
  ⟨fun e p d => structEq_refl _, rfl⟩

/-- C8: the tree-construction path is total.  The exception-aware model of
`shouldIgnore` always returns `ok` with the boolean value of the pure
function; a pattern whose regex does not compile degrades to the substring
containment check; and `buildFileTree` always returns a directory root. -/
theorem c8_theorem (path : String) (pats : List String) (entries : List Item)
    (ps : List String) (d : Int) (pat p : String)
    (hfail : compileRegex pat = none) :
    shouldIgnoreE path pats = .ok (shouldIgnore path pats)
    ∧ matchesPattern pat p = containsSub pat.toList p.toList
    ∧ isDirNode (buildFileTree entries ps d) = true := by
  refine ⟨shouldIgnoreE_ok path pats, ?_, ?_⟩
  · unfold matchesPattern
    rw [hfail]
  · unfold buildFileTree
    split
    · rfl
    · obtain ⟨h0, hlen⟩ := buildState_root entries ps d
      unfold materialize
      rcases hN : (buildState entries ps d).nodes.length with _ | k
      · omega
      · rw [matN, h0]
        simp [rootData, isDirNode]

/-- C8 witness: the totality statement at concrete inputs, with the
compile-failure hypothesis discharged by the pattern `"("`, whose generated
regex is rejected. -/
theorem c8_witness :
    shouldIgnoreE "src/app.js" ["*.js"] = .ok (shouldIgnore "src/app.js" ["*.js"])
    ∧ matchesPattern "(" "a(b" = containsSub "(".toList "a(b".toList
    ∧ isDirNode (buildFileTree [⟨some "a", some "blob"⟩] [] (-1)) = true :=
  c8_theorem "src/app.js" ["*.js"] [⟨some "a", some "blob"⟩] [] (-1) "(" "a(b" (by decide)

/-- C9 counterexample: the claim says a directory at or beyond the slash
ceiling of 5 is never expanded, but the guard tests the current path, so the
directory `n5`, whose path has exactly five slashes, is still expanded: its
child `n6` appears in the fetcher result. -/
theorem c9_counterexample :
    slashCount "n0/n1/n2/n3/n4/n5" = 5
    ∧ SEntry.mk "n0/n1/n2/n3/n4/n5/n6" "tree" ∈ buildManualTree chainFS := by
  refine ⟨by decide, ?_⟩
  simp [buildManualTree, processDirectory, chainFS, childPath, slashCount]

/-- C9 amended: recursion into a child directory happens only while the
current path has fewer than five slashes, so every produced entry path has at
most six slashes (directories more than one level past the ceiling are never
listed), and a directory at exactly five slashes is still expanded one level
while its subdirectories are not expanded further. -/
theorem c9_theorem :
    (∀ items : List FSItem, namesOKL items = true →
      ∀ e ∈ buildManualTree items, slashCount e.path ≤ 6)
    ∧ SEntry.mk "n0/n1/n2/n3/n4/n5/n6/deep" "blob" ∉ buildManualTree chainFS := by
  refine ⟨buildManualTree_bound, ?_⟩
  have h : buildManualTree chainFS =
      [⟨"n0", "tree"⟩, ⟨"n0/n1", "tree"⟩, ⟨"n0/n1/n2", "tree"⟩, ⟨"n0/n1/n2/n3", "tree"⟩,
       ⟨"n0/n1/n2/n3/n4", "tree"⟩, ⟨"n0/n1/n2/n3/n4/n5", "tree"⟩,
       ⟨"n0/n1/n2/n3/n4/n5/n6", "tree"⟩] := by
    simp [buildManualTree, processDirectory, chainFS, childPath, slashCount]
  rw [h]
  decide

/-- C9 witness: the path bound applied to the concrete deep chain. -/
theorem c9_witness : slashCount (SEntry.mk "n0/n1" "tree").path ≤ 6 := by
  refine c9_theorem.1 chainFS (by simp [namesOKL, namesOK, chainFS]) ⟨"n0/n1", "tree"⟩ ?_
  simp [buildManualTree, processDirectory, chainFS, childPath, slashCount]

/-- C10: an entry becomes a directory node exactly when its kind string is
`"tree"`; the kinds `"dir"`, `"directory"` and `"blob"` all produce file
nodes. -/
theorem c10_theorem :
    (∀ t : String, classifyType t = "directory" ↔ t = "tree")
    ∧ buildFileTree [⟨some "a", some "dir"⟩] [] (-1) = .dir "/" none [.file "a" "a"]
    ∧ buildFileTree [⟨some "a", some "directory"⟩] [] (-1) = .dir "/" none [.file "a" "a"]
    ∧ buildFileTree [⟨some "a", some "blob"⟩] [] (-1) = .dir "/" none [.file "a" "a"]
    ∧ buildFileTree [⟨some "a", some "tree"⟩] [] (-1)
        = .dir "/" none [.dir "a" (some "a") []] := by
  refine ⟨?_, rfl, rfl, rfl, rfl⟩
  intro t
  unfold classifyType
  by_cases ht : t = "tree" <;> simp [ht]

end RepoSage
